import Mathlib

/-!
Verification of the string-to-structured-value conversion core of the
easybuild framework (`easybuild/framework/easyconfig/format/convert.py`):
the `Patch`, `Patches` and `Dependency` conversion types.

The concrete conversion types (`Patch`, `Patches`, `Dependency`) are
translated directly from the source file.  Their base classes
(`Convert`, `DictOfStrings`, `ListOfStrings` from `easybuild.tools.convert`)
and the external version-operator types are not part of the sources at hand,
so they are modelled from the specification; each such definition carries a
doc comment starting with `Modelled from the spec:`.
-/

/-- Modelled from the spec: the error taxonomy of section 7 — `ParseError`
(grammar mismatch), `ValidationError` (well-formed but semantically invalid),
`TypeError` (wrong wrapped shape) — together with the plain `ValueError`
that `Dependency._from_string` raises in the source. -/
inductive ConvErr where
  | parseError : String → ConvErr
  | validationError : String → ConvErr
  | typeError : String → ConvErr
  | valueError : String → ConvErr
deriving DecidableEq, Repr

/-- Split a list of characters on every occurrence of `sep`; the accumulator
holds the characters of the current piece. -/
def splitCharsAux (sep : Char) : List Char → List Char → List (List Char)
  | [], cur => [cur]
  | c :: rest, cur =>
    if c = sep then cur :: splitCharsAux sep rest []
    else splitCharsAux sep rest (cur ++ [c])

/-- Split a list of characters on every occurrence of `sep`. -/
def splitChars (sep : Char) (cs : List Char) : List (List Char) :=
  splitCharsAux sep cs []

/-- Modelled from the spec: the shared splitting helper
`Convert._split_string` of the abstract base class (`easybuild.tools.convert`,
not among the sources at hand).  It splits a string on the given separator;
per the spec, `Dependency.parse ""` must fail the at-least-one-segment
check, so splitting the empty string yields no segments. -/
def strSplit (sep : Char) (s : String) : List String :=
  if s.data = [] then [] else (splitChars sep s.data).map (fun cs => String.mk cs)

/-- Split a character list at the first occurrence of `sep`, returning the
parts before and after it, or `none` when `sep` does not occur. -/
def splitFirst (sep : Char) : List Char → Option (List Char × List Char)
  | [] => none
  | c :: rest =>
    if c = sep then some ([], rest)
    else
      match splitFirst sep rest with
      | none => none
      | some (a, b) => some (c :: a, b)

/-- Modelled from the spec: splitting a dict segment on the first `:` into a
`key`/`value` pair (spec section 4.2 step 3). -/
def splitKeyValue (s : String) : Option (String × String) :=
  match splitFirst ':' s.data with
  | none => none
  | some (a, b) => some (String.mk a, String.mk b)

/-- First-match lookup in an association list with string keys. -/
def dlookup : List (String × α) → String → Option α
  | [], _ => none
  | p :: rest, k => if p.1 = k then some p.2 else dlookup rest k

/-- Insert with Python-dict semantics: an existing key keeps its position and
gets the new value, a fresh key is appended at the end. -/
def dictInsert (d : List (String × α)) (k : String) (v : α) : List (String × α) :=
  if (dlookup d k).isSome then
    d.map (fun p => if p.1 = k then (k, v) else p)
  else d ++ [(k, v)]

/-- State of the `DictOfStrings` segment loop: the index of the next segment,
the keyless keys already assigned positionally, and the mapping built so far. -/
structure DictSt where
  idx : Nat
  posUsed : List String
  acc : List (String × String)
deriving DecidableEq, Repr

/-- Modelled from the spec: processing of one `;`-separated segment by
`DictOfStrings._from_string` (spec section 4.2): a segment without `:` is a
positional value for the keyless key at the current index (`ParseError` when
no keyless slot is left), a `key:value` segment must use an allowed key
(`ValidationError` otherwise) that was not already assigned positionally
(`ValidationError` on such a duplicate). -/
def dictStep (keyless allowed : List String) (st : DictSt) (item : String) :
    Except ConvErr DictSt :=
  match splitKeyValue item with
  | some (k, v) =>
    if k ∈ keyless ++ allowed then
      if k ∈ st.posUsed then
        .error (.validationError ("Duplicate keyless key " ++ k))
      else
        .ok ⟨st.idx + 1, st.posUsed, dictInsert st.acc k v⟩
    else
      .error (.validationError ("Unsupported key " ++ k))
  | none =>
    match keyless[st.idx]? with
    | some kk => .ok ⟨st.idx + 1, kk :: st.posUsed, dictInsert st.acc kk item⟩
    | none => .error (.parseError ("Not a key-value segment: " ++ item))

/-- Run `dictStep` over a list of segments, failing fast on the first error. -/
def dictRun (keyless allowed : List String) :
    List String → DictSt → Except ConvErr DictSt
  | [], st => .ok st
  | item :: rest, st =>
    match dictStep keyless allowed st item with
    | .ok st2 => dictRun keyless allowed rest st2
    | .error e => .error e

/-- Modelled from the spec: `DictOfStrings._from_string`
(`easybuild.tools.convert`, not among the sources at hand): split the input
on `;` and process every segment per `dictStep` (spec section 4.2). -/
def dictOfStringsFromString (keyless allowed : List String) (txt : String) :
    Except ConvErr (List (String × String)) :=
  match dictRun keyless allowed (strSplit ';' txt) ⟨0, [], []⟩ with
  | .ok st => .ok st.acc
  | .error e => .error e

/-- Map a fallible function over a list, failing fast on the first error. -/
def mapE (f : α → Except ε β) : List α → Except ε (List β)
  | [] => .ok []
  | x :: xs =>
    match f x with
    | .ok y =>
      match mapE f xs with
      | .ok ys => .ok (y :: ys)
      | .error e => .error e
    | .error e => .error e

/-- The decimal digit characters. -/
def digitChar : Nat → Char
  | 0 => '0'
  | 1 => '1'
  | 2 => '2'
  | 3 => '3'
  | 4 => '4'
  | 5 => '5'
  | 6 => '6'
  | 7 => '7'
  | 8 => '8'
  | _ => '9'

/-- Numeric value of a digit character. -/
def charVal (c : Char) : Nat := c.toNat - 48

/-- Decimal digits of `n` (most significant first), with explicit fuel to
keep the recursion structural; `natChars` supplies sufficient fuel. -/
def natCharsAux : Nat → Nat → List Char
  | 0, _ => []
  | fuel + 1, n =>
    if n = 0 then [] else natCharsAux fuel (n / 10) ++ [digitChar (n % 10)]

/-- The decimal numeral of a natural number, as Python `str` prints it. -/
def natChars (n : Nat) : List Char :=
  if n = 0 then ['0'] else natCharsAux n n

/-- The decimal string of an integer, as Python `str` prints it. -/
def intStr : Int → String
  | .ofNat n => String.mk (natChars n)
  | .negSucc n => String.mk ('-' :: natChars (n + 1))

/-- Parse a digit run in the style of the Python `int` builtin: at least one
digit, with single underscores permitted between digits. -/
def pyDigitsAux : List Char → Nat → Option Nat
  | [], acc => some acc
  | c :: rest, acc =>
    if c.isDigit then pyDigitsAux rest (acc * 10 + charVal c)
    else if c = '_' then
      match rest with
      | [] => none
      | c2 :: rest2 =>
        if c2.isDigit then pyDigitsAux rest2 (acc * 10 + charVal c2) else none
    else none

/-- Parse a non-empty digit run (Python `int` builtin, after the sign). -/
def pyDigits : List Char → Option Nat
  | [] => none
  | c :: rest => if c.isDigit then pyDigitsAux rest (charVal c) else none

/-- Strip leading and trailing whitespace characters. -/
def stripWs (cs : List Char) : List Char :=
  ((cs.dropWhile Char.isWhitespace).reverse.dropWhile Char.isWhitespace).reverse

/-- The Python `int` builtin applied to a string: optional surrounding
whitespace, an optional sign, then a non-empty digit run (with single
underscores permitted between digits); anything else fails. -/
def pyInt (s : String) : Option Int :=
  match stripWs s.data with
  | [] => none
  | c :: rest =>
    if c = '+' then (pyDigits rest).map (fun n => (n : Int))
    else if c = '-' then (pyDigits rest).map (fun n => -(n : Int))
    else (pyDigits (c :: rest)).map (fun n => (n : Int))

/-- A value of the parsed `Patch` mapping: the `level` entry is coerced to an
integer, every other entry stays a string. -/
inductive PValue where
  | str : String → PValue
  | int : Int → PValue
deriving DecidableEq, Repr

/-- String form of a mapping value, as Python `str` prints it. -/
def pvalueStr : PValue → String
  | .str s => s
  | .int i => intStr i

/-- Join character pieces with a separator character between them. -/
def charJoinSep (sep : Char) : List (List Char) → List Char
  | [] => []
  | [p] => p
  | p :: ps => p ++ sep :: charJoinSep sep ps

/-- Join strings with a separator character between them (Python
`sep.join(...)`). -/
def joinSep (sep : Char) (parts : List String) : String :=
  String.mk (charJoinSep sep (parts.map String.data))

/-- Modelled from the spec: `DictOfStrings.__str__`
(`easybuild.tools.convert`, not among the sources at hand): re-emit keyless
entries first in declared order (value only, no key prefix), then all
remaining keys as `key:value`, joined by `;` (spec section 4.2). -/
def dictToString (keyless : List String) (d : List (String × PValue)) : String :=
  joinSep ';'
    ((keyless.filterMap (fun k => (dlookup d k).map pvalueStr)) ++
      ((d.filter (fun p => !(decide (p.1 ∈ keyless)))).map
        (fun p => p.1 ++ ":" ++ pvalueStr p.2)))

namespace Patch

/-- `Patch.KEYLESS_ENTRIES` from the source: `filename` may be supplied
positionally as the first element. -/
def KEYLESS_ENTRIES : List String := ["filename"]

/-- `Patch.ALLOWED_KEYS` from the source. -/
def ALLOWED_KEYS : List String := ["level", "dest"]

/-- The underlying `DictOfStrings._from_string` call of `Patch._from_string`,
with `Patch`'s keyless entries and allowed keys. -/
def baseFromString (txt : String) : Except ConvErr (List (String × String)) :=
  dictOfStringsFromString KEYLESS_ENTRIES ALLOWED_KEYS txt

/-- Coercion step of `Patch._from_string`: if `level` is present, replace its
value by `int(value)`; the Python `int` builtin raises on a non-numeric
string, which the spec taxonomy classifies as a `ValidationError`. -/
def coerceEntry (p : String × String) : Except ConvErr (String × PValue) :=
  if p.1 = "level" then
    match pyInt p.2 with
    | some i => .ok (p.1, .int i)
    | none => .error (.validationError ("Invalid integer literal: " ++ p.2))
  else .ok (p.1, .str p.2)

/-- Value coercion of `Patch._from_string` over the whole base mapping. -/
def coerceLevel (res : List (String × String)) :
    Except ConvErr (List (String × PValue)) :=
  mapE coerceEntry res

/-- `Patch._from_string` from the source: the base `DictOfStrings` parse
followed by the `level` integer coercion. -/
def fromString (txt : String) : Except ConvErr (List (String × PValue)) :=
  match baseFromString txt with
  | .ok res => coerceLevel res
  | .error e => .error e

/-- `Patch.__str__` from the source, which is `DictOfStrings.__str__`. -/
def toString (d : List (String × PValue)) : String :=
  dictToString KEYLESS_ENTRIES d

end Patch

namespace Patches

/-- `Patches._from_string` from the source: split the string on `,` via
`ListOfStrings._from_string` and parse every element as a `Patch`
(fail-fast, per spec section 4.3). -/
def fromString (txt : String) : Except ConvErr (List (List (String × PValue))) :=
  mapE Patch.fromString (strSplit ',' txt)

/-- `Patches.__str__` from the source, which is `ListOfStrings.__str__`:
join each element's own serialized form with `,` (spec section 4.3). -/
def toString (l : List (List (String × PValue))) : String :=
  joinSep ',' (l.map Patch.toString)

end Patches

/-- Modelled from the spec: the external `VersionOperator`
(`easybuild.framework.easyconfig.format.version`, not among the sources at
hand), consumed as an opaque parseable type whose string form round-trips;
modelled as a wrapper of its string form. -/
structure VersionOperator where
  vstr : String
deriving DecidableEq, Repr

/-- Modelled from the spec: the external `ToolchainVersionOperator`, an
opaque round-trippable wrapper of its string form (like `VersionOperator`). -/
structure ToolchainVersionOperator where
  tcstr : String
deriving DecidableEq, Repr

namespace Dependency

/-- `Dependency.SEPARATOR_DEP` from the source. -/
def SEPARATOR_DEP : Char := ';'

/-- The error message of `Dependency._from_string` for a wrong number of
`;`-separated elements. -/
def cardinalityMsg : String :=
  "Dependency has at least one element (a version operator string), " ++
    "and at most 2 (2nd element the toolchain version operator string). " ++
    "Separator ;."

end Dependency

/-- The mapping `Dependency._from_string` builds: a required `versop` entry
and an optional `tc_versop` entry. -/
structure Dependency where
  versop : VersionOperator
  tc_versop : Option ToolchainVersionOperator
deriving DecidableEq, Repr

namespace Dependency

/-- `Dependency._from_string` from the source: split on `;`, fail with
`ValueError` unless there are one or two elements, parse the first element
as a `VersionOperator` and the optional second as a
`ToolchainVersionOperator`. -/
def fromString (txt : String) : Except ConvErr Dependency :=
  match strSplit SEPARATOR_DEP txt with
  | [v] => .ok ⟨⟨v⟩, none⟩
  | [v, t] => .ok ⟨⟨v⟩, some ⟨t⟩⟩
  | _ => .error (.valueError cardinalityMsg)

/-- `Dependency.__str__` from the source: the string forms of the present
fields joined by `;`, omitting `tc_versop` when absent. -/
def toString : Dependency → String
  | ⟨⟨v⟩, none⟩ => v
  | ⟨⟨v⟩, some ⟨t⟩⟩ => v ++ ";" ++ t

end Dependency

/-- Python-dict equality of two string-keyed mappings: the same keys bound to
the same values, ignoring entry order. -/
def dictEq (d1 d2 : List (String × PValue)) : Prop :=
  ∀ k, dlookup d1 k = dlookup d2 k

/-- The filename constraint under which a parsed `Patch` mapping serializes
to a re-parseable string: an explicitly supplied `filename` value containing
`:` (or an empty one as the only entry) cannot be re-read positionally. -/
def filenameOk (m : List (String × PValue)) : Prop :=
  match dlookup m "filename" with
  | some (.str s) => s ≠ "" ∧ ':' ∉ s.data
  | _ => True

/-- Relation between one entry of the base `DictOfStrings` mapping and the
corresponding entry after `Patch`'s `level` coercion: same key, the `level`
value replaced by its integer, every other value kept as a string. -/
def coerceRel (p : String × String) (q : String × PValue) : Prop :=
  p.1 = q.1 ∧
    ((p.1 = "level" ∧ ∃ i, pyInt p.2 = some i ∧ q.2 = PValue.int i) ∨
      (p.1 ≠ "level" ∧ q.2 = PValue.str p.2))

deriving instance DecidableEq for Except

-- Sanity examples.
example : Patch.fromString "a.patch;level:2" =
    .ok [("filename", .str "a.patch"), ("level", .int 2)] := by decide
example : Patch.fromString "filename:foo.patch;level:1" =
    .ok [("filename", .str "foo.patch"), ("level", .int 1)] := by decide
example : Dependency.fromString "1.2.3;>=2020a" =
    .ok ⟨⟨"1.2.3"⟩, some ⟨">=2020a"⟩⟩ := by decide
example : Dependency.fromString "" = .error (.valueError Dependency.cardinalityMsg) := by decide
example : Patches.fromString "a.patch,b.patch;level:1" =
    .ok [[("filename", .str "a.patch")], [("filename", .str "b.patch"), ("level", .int 1)]] := by
  decide
example : Patch.toString [("filename", .str "a.patch"), ("level", .int 2)] =
    "a.patch;level:2" := by decide

-- ## Lemmas about character-level splitting and joining

theorem splitCharsAux_ne_nil (sep : Char) (cs cur : List Char) :
    splitCharsAux sep cs cur ≠ [] := by
  induction cs generalizing cur with
  | nil => simp [splitCharsAux]
  | cons c rest ih =>
    simp only [splitCharsAux]
    split
    · simp
    · exact ih _

theorem splitChars_ne_nil (sep : Char) (cs : List Char) :
    splitChars sep cs ≠ [] := splitCharsAux_ne_nil sep cs []

theorem splitCharsAux_eq_cons (sep : Char) (cs : List Char) :
    ∀ cur, ∃ h t, splitChars sep cs = h :: t ∧
      splitCharsAux sep cs cur = (cur ++ h) :: t := by
  induction cs with
  | nil => intro cur; exact ⟨[], [], rfl, by simp [splitCharsAux]⟩
  | cons c rest ih =>
    intro cur
    by_cases hc : c = sep
    · subst hc
      exact ⟨[], splitCharsAux c rest [], by simp [splitChars, splitCharsAux],
        by simp [splitCharsAux]⟩
    · obtain ⟨h, t, h1, h2⟩ := ih [c]
      obtain ⟨h', t', h1', h2'⟩ := ih (cur ++ [c])
      rw [h1] at h1'
      injection h1' with e1 e2
      subst e1
      subst e2
      refine ⟨c :: h, t, ?_, ?_⟩
      · simpa [splitChars, splitCharsAux, hc] using h2
      · simpa [splitCharsAux, hc, List.append_assoc] using h2'

theorem splitCharsAux_of_not_mem (sep : Char) (cs cur : List Char)
    (h : sep ∉ cs) : splitCharsAux sep cs cur = [cur ++ cs] := by
  induction cs generalizing cur with
  | nil => simp [splitCharsAux]
  | cons c rest ih =>
    simp only [List.mem_cons, not_or] at h
    have hc : c ≠ sep := fun hcc => h.1 hcc.symm
    simp [splitCharsAux, hc, ih (cur ++ [c]) h.2]

theorem splitChars_of_not_mem (sep : Char) (cs : List Char)
    (h : sep ∉ cs) : splitChars sep cs = [cs] := by
  simpa using splitCharsAux_of_not_mem sep cs [] h

theorem splitCharsAux_append_sep (sep : Char) (xs ys cur : List Char) :
    splitCharsAux sep (xs ++ sep :: ys) cur =
      splitCharsAux sep xs cur ++ splitChars sep ys := by
  induction xs generalizing cur with
  | nil => simp [splitCharsAux, splitChars]
  | cons x xs ih =>
    by_cases hx : x = sep
    · subst hx; simp [splitCharsAux, ih]
    · simp [splitCharsAux, hx, ih]

theorem splitChars_append_sep (sep : Char) (xs ys : List Char) :
    splitChars sep (xs ++ sep :: ys) = splitChars sep xs ++ splitChars sep ys :=
  splitCharsAux_append_sep sep xs ys []

theorem splitCharsAux_sepfree_append (sep : Char) (xs ys cur : List Char)
    (h : sep ∉ xs) :
    splitCharsAux sep (xs ++ ys) cur = splitCharsAux sep ys (cur ++ xs) := by
  induction xs generalizing cur with
  | nil => simp
  | cons x xs ih =>
    simp only [List.mem_cons, not_or] at h
    have hx : x ≠ sep := fun hxx => h.1 hxx.symm
    simp [splitCharsAux, hx, ih (cur ++ [x]) h.2]

theorem splitChars_sepfree_append (sep : Char) (xs ys : List Char)
    (h : sep ∉ xs) :
    ∃ hd tl, splitChars sep ys = hd :: tl ∧
      splitChars sep (xs ++ ys) = (xs ++ hd) :: tl := by
  obtain ⟨hd, tl, h1, h2⟩ := splitCharsAux_eq_cons sep ys xs
  exact ⟨hd, tl, h1, by
    simpa [splitChars, splitCharsAux_sepfree_append sep xs ys [] h] using h2⟩

theorem mem_splitCharsAux_not_sep (sep : Char) (cs : List Char) :
    ∀ cur p, p ∈ splitCharsAux sep cs cur → sep ∉ cur → sep ∉ p := by
  induction cs with
  | nil =>
    intro cur p hp hcur
    simp [splitCharsAux] at hp
    simpa [hp] using hcur
  | cons c rest ih =>
    intro cur p hp hcur
    simp only [splitCharsAux] at hp
    split at hp
    · rcases List.mem_cons.mp hp with h | h
      · exact h ▸ hcur
      · exact ih [] p h (by simp)
    · next hc =>
      exact ih (cur ++ [c]) p hp (by
        simp only [List.mem_append, List.mem_singleton, not_or]
        exact ⟨hcur, fun hsc => hc hsc.symm⟩)

theorem mem_splitChars_not_sep (sep : Char) (cs p : List Char)
    (hp : p ∈ splitChars sep cs) : sep ∉ p :=
  mem_splitCharsAux_not_sep sep cs [] p hp (by simp)

theorem mem_splitCharsAux_subset (sep : Char) (cs : List Char) :
    ∀ cur p, p ∈ splitCharsAux sep cs cur → ∀ c ∈ p, c ∈ cur ∨ c ∈ cs := by
  induction cs with
  | nil =>
    intro cur p hp c hc
    simp [splitCharsAux] at hp
    exact Or.inl (hp ▸ hc)
  | cons d rest ih =>
    intro cur p hp c hc
    simp only [splitCharsAux] at hp
    split at hp
    · rcases List.mem_cons.mp hp with h | h
      · exact Or.inl (h ▸ hc)
      · rcases ih [] p h c hc with h2 | h2
        · simp at h2
        · exact Or.inr (by simp [h2])
    · rcases ih (cur ++ [d]) p hp c hc with h | h
      · rcases List.mem_append.mp h with h2 | h2
        · exact Or.inl h2
        · simp only [List.mem_singleton] at h2
          exact Or.inr (by simp [h2])
      · exact Or.inr (by simp [h])

theorem mem_splitChars_subset (sep : Char) (cs p : List Char)
    (hp : p ∈ splitChars sep cs) : ∀ c ∈ p, c ∈ cs := by
  intro c hc
  rcases mem_splitCharsAux_subset sep cs [] p hp c hc with h | h
  · simp at h
  · exact h

theorem charJoinSep_cons (sep : Char) (p : List Char) (ps : List (List Char))
    (h : ps ≠ []) :
    charJoinSep sep (p :: ps) = p ++ sep :: charJoinSep sep ps := by
  cases ps with
  | nil => exact absurd rfl h
  | cons q qs => rfl

theorem charJoinSep_splitCharsAux (sep : Char) (cs cur : List Char) :
    charJoinSep sep (splitCharsAux sep cs cur) = cur ++ cs := by
  induction cs generalizing cur with
  | nil => simp [splitCharsAux, charJoinSep]
  | cons c rest ih =>
    by_cases hc : c = sep
    · subst hc
      rw [splitCharsAux, if_pos rfl,
        charJoinSep_cons _ _ _ (splitCharsAux_ne_nil _ _ _), ih []]
      simp
    · rw [splitCharsAux, if_neg hc, ih (cur ++ [c])]
      simp

theorem charJoinSep_splitChars (sep : Char) (cs : List Char) :
    charJoinSep sep (splitChars sep cs) = cs :=
  charJoinSep_splitCharsAux sep cs []

theorem splitChars_charJoinSep (sep : Char) (ps : List (List Char))
    (hne : ps ≠ []) (h : ∀ p ∈ ps, sep ∉ p) :
    splitChars sep (charJoinSep sep ps) = ps := by
  induction ps with
  | nil => exact absurd rfl hne
  | cons p ps ih =>
    cases ps with
    | nil =>
      simp only [charJoinSep]
      exact splitChars_of_not_mem sep p (h p (by simp))
    | cons q qs =>
      rw [charJoinSep_cons sep p _ (by simp), splitChars_append_sep,
        splitChars_of_not_mem sep p (h p (by simp)),
        ih (by simp) (fun r hr => h r (List.mem_cons_of_mem p hr))]
      rfl

-- ## Lemmas about first-separator splitting and strings

theorem splitFirst_of_not_mem (sep : Char) (cs : List Char) (h : sep ∉ cs) :
    splitFirst sep cs = none := by
  induction cs with
  | nil => rfl
  | cons c rest ih =>
    simp only [List.mem_cons, not_or] at h
    have hc : c ≠ sep := fun e => h.1 e.symm
    simp [splitFirst, hc, ih h.2]

theorem splitFirst_append_sep (sep : Char) (a b : List Char) (h : sep ∉ a) :
    splitFirst sep (a ++ sep :: b) = some (a, b) := by
  induction a with
  | nil => simp [splitFirst]
  | cons c rest ih =>
    simp only [List.mem_cons, not_or] at h
    have hc : c ≠ sep := fun e => h.1 e.symm
    simp [splitFirst, hc, ih h.2]

theorem splitFirst_eq_some (sep : Char) (cs : List Char) :
    ∀ a b, splitFirst sep cs = some (a, b) → cs = a ++ sep :: b ∧ sep ∉ a := by
  induction cs with
  | nil => intro a b h; simp [splitFirst] at h
  | cons c rest ih =>
    intro a b h
    simp only [splitFirst] at h
    split at h
    · next hceq =>
      simp only [Option.some.injEq, Prod.mk.injEq] at h
      obtain ⟨rfl, rfl⟩ := h
      exact ⟨by simp [hceq], by simp⟩
    · next hc =>
      cases hm : splitFirst sep rest with
      | none => rw [hm] at h; simp at h
      | some ab =>
        obtain ⟨a2, b2⟩ := ab
        rw [hm] at h
        simp only [Option.some.injEq, Prod.mk.injEq] at h
        obtain ⟨rfl, rfl⟩ := h
        obtain ⟨h1, h2⟩ := ih a2 b2 hm
        constructor
        · rw [h1]; rfl
        · simp only [List.mem_cons, not_or]
          exact ⟨fun e => hc e.symm, h2⟩

theorem strMk_data (s : String) : String.mk s.data = s := rfl

theorem strData_mk (cs : List Char) : (String.mk cs).data = cs := rfl

theorem strData_append (s t : String) : (s ++ t).data = s.data ++ t.data := rfl

theorem strEq_of_data (s t : String) (h : s.data = t.data) : s = t := by
  cases s
  cases t
  simp only at h
  exact congrArg String.mk h

theorem splitKeyValue_of_not_mem (s : String) (h : ':' ∉ s.data) :
    splitKeyValue s = none := by
  simp [splitKeyValue, splitFirst_of_not_mem ':' s.data h]

theorem splitKeyValue_append_colon (a b : List Char) (h : ':' ∉ a) :
    splitKeyValue (String.mk (a ++ ':' :: b)) =
      some (String.mk a, String.mk b) := by
  simp [splitKeyValue, splitFirst_append_sep ':' a b h]

theorem splitKeyValue_eq_some (s k v : String)
    (h : splitKeyValue s = some (k, v)) :
    s.data = k.data ++ ':' :: v.data ∧ ':' ∉ k.data := by
  simp only [splitKeyValue] at h
  cases hm : splitFirst ':' s.data with
  | none => rw [hm] at h; simp at h
  | some ab =>
    obtain ⟨a, b⟩ := ab
    rw [hm] at h
    simp only [Option.some.injEq, Prod.mk.injEq] at h
    obtain ⟨rfl, rfl⟩ := h
    exact splitFirst_eq_some ':' s.data a b hm

-- ## Lemmas about association lists

theorem dlookup_eq_none_iff (d : List (String × α)) (k : String) :
    dlookup d k = none ↔ k ∉ d.map Prod.fst := by
  induction d with
  | nil => simp [dlookup]
  | cons p rest ih =>
    simp only [dlookup, List.map_cons, List.mem_cons]
    by_cases hp : p.1 = k
    · simp [hp]
    · simp only [if_neg hp, ih]
      constructor
      · intro h hor
        rcases hor with h2 | h2
        · exact hp h2.symm
        · exact h h2
      · intro h
        exact fun h2 => h (Or.inr h2)

theorem dlookup_append_left (d1 d2 : List (String × α)) (k : String) (v : α)
    (h : dlookup d1 k = some v) : dlookup (d1 ++ d2) k = some v := by
  induction d1 with
  | nil => simp [dlookup] at h
  | cons p rest ih =>
    simp only [dlookup] at h
    simp only [List.cons_append, dlookup]
    split at h
    · next hpk => rw [if_pos hpk]; exact h
    · next hpk => rw [if_neg hpk]; exact ih h

theorem dlookup_append_none (d1 d2 : List (String × α)) (k : String)
    (h : dlookup d1 k = none) : dlookup (d1 ++ d2) k = dlookup d2 k := by
  induction d1 with
  | nil => rfl
  | cons p rest ih =>
    simp only [dlookup] at h
    simp only [List.cons_append, dlookup]
    split at h
    · simp at h
    · next hpk => rw [if_neg hpk]; exact ih h

theorem dictInsert_of_none (d : List (String × α)) (k : String) (v : α)
    (h : dlookup d k = none) : dictInsert d k v = d ++ [(k, v)] := by
  simp [dictInsert, h]

theorem dlookup_map_replace_self (d : List (String × α)) (k : String) (v : α) :
    dlookup (d.map (fun p => if p.1 = k then (k, v) else p)) k =
      (dlookup d k).map (fun _ => v) := by
  induction d with
  | nil => rfl
  | cons p rest ih =>
    by_cases hp : p.1 = k
    · simp [dlookup, hp]
    · simp only [List.map_cons, if_neg hp, dlookup]
      exact ih

theorem dlookup_map_replace_other (d : List (String × α)) (k : String) (v : α)
    (k2 : String) (h : k2 ≠ k) :
    dlookup (d.map (fun p => if p.1 = k then (k, v) else p)) k2 =
      dlookup d k2 := by
  induction d with
  | nil => rfl
  | cons p rest ih =>
    by_cases hp : p.1 = k
    · have hpk2 : ¬ p.1 = k2 := fun e => h (e.symm.trans hp)
      have hk2 : ¬ k = k2 := fun e => h e.symm
      simp only [List.map_cons, if_pos hp, dlookup, if_neg hk2, if_neg hpk2]
      exact ih
    · simp only [List.map_cons, if_neg hp, dlookup]
      split
      · rfl
      · exact ih

theorem dlookup_dictInsert_self (d : List (String × α)) (k : String) (v : α) :
    dlookup (dictInsert d k v) k = some v := by
  unfold dictInsert
  split
  · next hs =>
    rw [dlookup_map_replace_self]
    obtain ⟨w, hw⟩ := Option.isSome_iff_exists.mp hs
    simp [hw]
  · next hs =>
    have hn : dlookup d k = none := Option.not_isSome_iff_eq_none.mp hs
    rw [dlookup_append_none d _ k hn]
    simp [dlookup]

theorem dlookup_dictInsert_other (d : List (String × α)) (k : String) (v : α)
    (k2 : String) (h : k2 ≠ k) :
    dlookup (dictInsert d k v) k2 = dlookup d k2 := by
  unfold dictInsert
  split
  · exact dlookup_map_replace_other d k v k2 h
  · cases hl : dlookup d k2 with
    | none =>
      rw [dlookup_append_none d _ k2 hl]
      have hk : ¬ k = k2 := fun e => h e.symm
      simp [dlookup, hk, hl]
    | some w => exact dlookup_append_left d _ k2 w hl

theorem keys_map_replace (d : List (String × α)) (k : String) (v : α) :
    ((d.map (fun p => if p.1 = k then (k, v) else p)).map Prod.fst) =
      d.map Prod.fst := by
  induction d with
  | nil => rfl
  | cons p rest ih =>
    by_cases hp : p.1 = k
    · simp [hp, ih]
    · simp [hp, ih]

theorem dictInsert_keys_of_some (d : List (String × α)) (k : String) (v : α)
    (h : (dlookup d k).isSome) :
    (dictInsert d k v).map Prod.fst = d.map Prod.fst := by
  rw [dictInsert, if_pos h, keys_map_replace]

theorem dictInsert_nodupkeys (d : List (String × α)) (k : String) (v : α)
    (h : (d.map Prod.fst).Nodup) :
    ((dictInsert d k v).map Prod.fst).Nodup := by
  unfold dictInsert
  split
  · rwa [keys_map_replace]
  · next hs =>
    have hn : dlookup d k = none := Option.not_isSome_iff_eq_none.mp hs
    have hk : k ∉ d.map Prod.fst := (dlookup_eq_none_iff d k).mp hn
    rw [List.map_append]
    rw [List.nodup_append]
    refine ⟨h, by simp, ?_⟩
    intro a ha hb
    simp only [List.map_cons, List.map_nil, List.mem_singleton] at hb
    exact hk (hb ▸ ha)

-- ## Lemmas about fallible maps and the dict segment loop

theorem mapE_ok_forall2 (f : α → Except ε β) (l : List α) :
    ∀ ys, mapE f l = .ok ys → List.Forall₂ (fun x y => f x = .ok y) l ys := by
  induction l with
  | nil =>
    intro ys h
    simp only [mapE, Except.ok.injEq] at h
    subst h
    exact List.Forall₂.nil
  | cons x xs ih =>
    intro ys h
    simp only [mapE] at h
    cases hf : f x with
    | error e => rw [hf] at h; simp at h
    | ok y =>
      rw [hf] at h
      cases hm : mapE f xs with
      | error e => rw [hm] at h; simp at h
      | ok ys2 =>
        rw [hm] at h
        simp only [Except.ok.injEq] at h
        subst h
        exact List.Forall₂.cons hf (ih ys2 hm)

theorem forall2_mapE_ok (f : α → Except ε β) (l : List α) (ys : List β)
    (h : List.Forall₂ (fun x y => f x = .ok y) l ys) : mapE f l = .ok ys := by
  induction h with
  | nil => rfl
  | cons hf _ ih => simp [mapE, hf, ih]

theorem mapE_all_ok (f : α → Except ε β) (l : List α)
    (h : ∀ x ∈ l, ∃ y, f x = .ok y) : ∃ ys, mapE f l = .ok ys := by
  induction l with
  | nil => exact ⟨[], rfl⟩
  | cons x xs ih =>
    obtain ⟨y, hy⟩ := h x (by simp)
    obtain ⟨ys, hys⟩ := ih (fun z hz => h z (by simp [hz]))
    exact ⟨y :: ys, by simp [mapE, hy, hys]⟩

theorem mapE_error_append (f : α → Except ε β) (l1 l2 : List α) (x : α)
    (e : ε) (h1 : ∀ z ∈ l1, ∃ y, f z = .ok y) (h2 : f x = .error e) :
    mapE f (l1 ++ x :: l2) = .error e := by
  induction l1 with
  | nil => simp [mapE, h2]
  | cons z zs ih =>
    obtain ⟨y, hy⟩ := h1 z (by simp)
    have ih2 := ih (fun w hw => h1 w (by simp [hw]))
    simp [mapE, hy, ih2]

theorem dictRun_append_ok (kl al : List String) (s1 s2 : List String) :
    ∀ st st2, dictRun kl al s1 st = .ok st2 →
      dictRun kl al (s1 ++ s2) st = dictRun kl al s2 st2 := by
  induction s1 with
  | nil =>
    intro st st2 h
    simp only [dictRun, Except.ok.injEq] at h
    subst h
    rfl
  | cons item rest ih =>
    intro st st2 h
    simp only [dictRun] at h
    simp only [List.cons_append, dictRun]
    cases hs : dictStep kl al st item with
    | error e => rw [hs] at h; simp at h
    | ok st3 =>
      rw [hs] at h
      exact ih st3 st2 h

theorem dictRun_append_error (kl al : List String) (s1 s2 : List String) :
    ∀ st e, dictRun kl al s1 st = .error e →
      dictRun kl al (s1 ++ s2) st = .error e := by
  induction s1 with
  | nil => intro st e h; simp [dictRun] at h
  | cons item rest ih =>
    intro st e h
    simp only [dictRun] at h
    simp only [List.cons_append, dictRun]
    cases hs : dictStep kl al st item with
    | error e2 =>
      rw [hs] at h
      exact h
    | ok st3 =>
      rw [hs] at h
      exact ih st3 e h

-- ## Lemmas about decimal numerals and the Python int builtin

theorem digitChar_shape (d : Nat) :
    digitChar d ≠ ';' ∧ digitChar d ≠ ',' ∧ digitChar d ≠ ':' ∧
      digitChar d ≠ '+' ∧ digitChar d ≠ '-' ∧
      (digitChar d).isWhitespace = false ∧ (digitChar d).isDigit = true := by
  unfold digitChar
  split <;> exact (by decide)

theorem charVal_digitChar (d : Nat) (h : d < 10) : charVal (digitChar d) = d := by
  interval_cases d <;> decide

theorem natCharsAux_mem (fuel : Nat) :
    ∀ n c, c ∈ natCharsAux fuel n → ∃ d, d < 10 ∧ c = digitChar d := by
  induction fuel with
  | zero => intro n c h; simp [natCharsAux] at h
  | succ fuel ih =>
    intro n c h
    simp only [natCharsAux] at h
    split at h
    · simp at h
    · rcases List.mem_append.mp h with h2 | h2
      · exact ih (n / 10) c h2
      · simp only [List.mem_singleton] at h2
        exact ⟨n % 10, Nat.mod_lt n (by norm_num), h2⟩

theorem natChars_mem (n : Nat) :
    ∀ c ∈ natChars n, ∃ d, d < 10 ∧ c = digitChar d := by
  intro c h
  unfold natChars at h
  split at h
  · simp only [List.mem_singleton] at h
    exact ⟨0, by norm_num, h⟩
  · exact natCharsAux_mem n n c h

theorem natCharsAux_ne_nil (fuel n : Nat) (hf : fuel ≠ 0) (hn : n ≠ 0) :
    natCharsAux fuel n ≠ [] := by
  cases fuel with
  | zero => exact absurd rfl hf
  | succ f => simp [natCharsAux, hn]

theorem natChars_ne_nil (n : Nat) : natChars n ≠ [] := by
  unfold natChars
  split
  · simp
  · next hn => exact natCharsAux_ne_nil n n hn hn

theorem natCharsAux_foldl (fuel : Nat) :
    ∀ n acc, n ≤ fuel →
      (natCharsAux fuel n).foldl (fun a c => a * 10 + charVal c) acc =
        acc * 10 ^ (natCharsAux fuel n).length + n := by
  induction fuel with
  | zero =>
    intro n acc h
    interval_cases n
    simp [natCharsAux]
  | succ fuel ih =>
    intro n acc h
    by_cases hn : n = 0
    · simp [natCharsAux, hn]
    · have hdiv : n / 10 < n := Nat.div_lt_self (Nat.pos_of_ne_zero hn) (by norm_num)
      have hle : n / 10 ≤ fuel := by omega
      simp only [natCharsAux, if_neg hn, List.foldl_append, List.length_append,
        List.foldl_cons, List.foldl_nil, List.length_cons, List.length_nil]
      rw [ih (n / 10) acc hle, charVal_digitChar (n % 10) (Nat.mod_lt n (by norm_num))]
      have hmod : 10 * (n / 10) + n % 10 = n := Nat.div_add_mod n 10
      ring_nf
      omega

theorem pyDigitsAux_cons_digit (c : Char) (rest : List Char) (acc : Nat)
    (hc : c.isDigit = true) :
    pyDigitsAux (c :: rest) acc = pyDigitsAux rest (acc * 10 + charVal c) := by
  conv_lhs => unfold pyDigitsAux
  rw [if_pos hc]

theorem pyDigitsAux_all_digits (cs : List Char) (h : ∀ c ∈ cs, c.isDigit = true) :
    ∀ acc, pyDigitsAux cs acc =
      some (cs.foldl (fun a c => a * 10 + charVal c) acc) := by
  induction cs with
  | nil => intro acc; rfl
  | cons c rest ih =>
    intro acc
    have hc : c.isDigit = true := h c (by simp)
    rw [pyDigitsAux_cons_digit c rest acc hc, List.foldl_cons]
    exact ih (fun c2 h2 => h c2 (by simp [h2])) (acc * 10 + charVal c)

theorem pyDigits_all_digits (cs : List Char) (hne : cs ≠ [])
    (h : ∀ c ∈ cs, c.isDigit = true) :
    pyDigits cs = some (cs.foldl (fun a c => a * 10 + charVal c) 0) := by
  cases cs with
  | nil => exact absurd rfl hne
  | cons c rest =>
    have hc : c.isDigit = true := h c (by simp)
    simp only [pyDigits, hc, if_true, List.foldl_cons]
    rw [pyDigitsAux_all_digits rest (fun c2 h2 => h c2 (by simp [h2]))]
    norm_num

theorem pyDigits_natChars (n : Nat) : pyDigits (natChars n) = some n := by
  by_cases hn : n = 0
  · subst hn; decide
  · have hall : ∀ c ∈ natChars n, c.isDigit = true := by
      intro c hc
      obtain ⟨d, _, rfl⟩ := natChars_mem n c hc
      exact (digitChar_shape d).2.2.2.2.2.2
    rw [pyDigits_all_digits (natChars n) (natChars_ne_nil n) hall]
    have : natChars n = natCharsAux n n := by simp [natChars, hn]
    rw [this, natCharsAux_foldl n n 0 (le_refl n)]
    simp

theorem dropWhile_no_ws (l : List Char)
    (h : ∀ c ∈ l, c.isWhitespace = false) :
    l.dropWhile Char.isWhitespace = l := by
  cases l with
  | nil => rfl
  | cons c rest =>
    rw [List.dropWhile_cons]
    simp [h c (by simp)]

theorem stripWs_no_ws (cs : List Char) (h : ∀ c ∈ cs, c.isWhitespace = false) :
    stripWs cs = cs := by
  unfold stripWs
  rw [dropWhile_no_ws cs h]
  rw [dropWhile_no_ws cs.reverse (fun c hc => h c (List.mem_reverse.mp hc))]
  exact List.reverse_reverse cs

theorem pyInt_intStr (i : Int) : pyInt (intStr i) = some i := by
  cases i with
  | ofNat n =>
    have hall : ∀ c ∈ natChars n, c.isWhitespace = false := by
      intro c hc
      obtain ⟨d, _, rfl⟩ := natChars_mem n c hc
      exact (digitChar_shape d).2.2.2.2.2.1
    have hdata : (intStr (Int.ofNat n)).data = natChars n := rfl
    rw [pyInt, hdata, stripWs_no_ws (natChars n) hall]
    cases hsh : natChars n with
    | nil => exact absurd hsh (natChars_ne_nil n)
    | cons c rest =>
      have hc : ∃ d, d < 10 ∧ c = digitChar d := natChars_mem n c (by simp [hsh])
      obtain ⟨d, _, rfl⟩ := hc
      simp only [if_neg (digitChar_shape d).2.2.2.1, if_neg (digitChar_shape d).2.2.2.2.1]
      rw [← hsh, pyDigits_natChars n]
      rfl
  | negSucc n =>
    have hall : ∀ c ∈ natChars (n + 1), c.isWhitespace = false := by
      intro c hc
      obtain ⟨d, _, rfl⟩ := natChars_mem (n + 1) c hc
      exact (digitChar_shape d).2.2.2.2.2.1
    have hall2 : ∀ c ∈ '-' :: natChars (n + 1), c.isWhitespace = false := by
      intro c hc
      rcases List.mem_cons.mp hc with rfl | hc2
      · decide
      · exact hall c hc2
    have hdata : (intStr (Int.negSucc n)).data = '-' :: natChars (n + 1) := rfl
    rw [pyInt, hdata, stripWs_no_ws _ hall2]
    simp only [if_neg (by decide : ¬ ('-' : Char) = '+'), if_pos rfl]
    rw [pyDigits_natChars (n + 1)]
    simp [Int.negSucc_eq]

-- ## Lemmas about the level coercion of Patch

theorem coerceEntry_level (v : String) (i : Int) (h : pyInt v = some i) :
    Patch.coerceEntry ("level", v) = .ok ("level", .int i) := by
  simp [Patch.coerceEntry, h]

theorem coerceEntry_other (k v : String) (h : k ≠ "level") :
    Patch.coerceEntry (k, v) = .ok (k, .str v) := by
  simp [Patch.coerceEntry, h]

theorem coerceLevel_forall2 (res : List (String × String))
    (m : List (String × PValue)) (h : Patch.coerceLevel res = .ok m) :
    List.Forall₂ coerceRel res m := by
  have h2 := mapE_ok_forall2 Patch.coerceEntry res m h
  refine List.Forall₂.imp ?_ h2
  intro p q hpq
  by_cases hk : p.1 = "level"
  · simp only [Patch.coerceEntry, if_pos hk] at hpq
    cases hi : pyInt p.2 with
    | none => rw [hi] at hpq; simp at hpq
    | some i =>
      rw [hi] at hpq
      simp only [Except.ok.injEq] at hpq
      subst hpq
      exact ⟨rfl, Or.inl ⟨hk, i, hi, rfl⟩⟩
  · simp only [Patch.coerceEntry, if_neg hk] at hpq
    simp only [Except.ok.injEq] at hpq
    subst hpq
    exact ⟨rfl, Or.inr ⟨hk, rfl⟩⟩

theorem forall2_coerce_keys (res : List (String × String))
    (m : List (String × PValue)) (h : List.Forall₂ coerceRel res m) :
    m.map Prod.fst = res.map Prod.fst := by
  induction h with
  | nil => rfl
  | cons hpq htail ih => simp only [List.map_cons, ih, hpq.1]

theorem forall2_coerce_dlookup_other (res : List (String × String))
    (m : List (String × PValue)) (h : List.Forall₂ coerceRel res m) :
    ∀ k, k ≠ "level" → dlookup m k = (dlookup res k).map PValue.str := by
  induction h with
  | nil => intro k hk; rfl
  | @cons a b l1 l2 hpq htail ih =>
    intro k hk
    obtain ⟨hfst, hval⟩ := hpq
    by_cases ha : a.1 = k
    · have hb : b.1 = k := hfst ▸ ha
      rcases hval with ⟨hlev, _⟩ | ⟨_, hstr⟩
      · exact absurd (ha ▸ hlev) (by simpa [ha] using hk)
      · simp [dlookup, ha, hb, hstr]
    · have hb : ¬ b.1 = k := fun e => ha (hfst ▸ e)
      simp only [dlookup, if_neg ha, if_neg hb]
      exact ih k hk

theorem forall2_coerce_dlookup_level (res : List (String × String))
    (m : List (String × PValue)) (h : List.Forall₂ coerceRel res m) :
    (dlookup res "level" = none → dlookup m "level" = none) ∧
      (∀ v, dlookup res "level" = some v →
        ∃ i, pyInt v = some i ∧ dlookup m "level" = some (PValue.int i)) := by
  induction h with
  | nil => exact ⟨fun _ => rfl, fun v hv => by simp [dlookup] at hv⟩
  | @cons a b l1 l2 hpq htail ih =>
    obtain ⟨hfst, hval⟩ := hpq
    by_cases ha : a.1 = "level"
    · have hb : b.1 = "level" := hfst ▸ ha
      constructor
      · intro hn
        rw [dlookup, if_pos ha] at hn
        exact absurd hn (by simp)
      · intro v hv
        rw [dlookup, if_pos ha] at hv
        simp only [Option.some.injEq] at hv
        subst hv
        rcases hval with ⟨_, i, hpi, hq⟩ | ⟨hne, _⟩
        · exact ⟨i, hpi, by simp [dlookup, hb, hq]⟩
        · exact absurd ha hne
    · have hb : ¬ b.1 = "level" := fun e => ha (hfst ▸ e)
      constructor
      · intro hn
        rw [dlookup, if_neg ha] at hn
        rw [dlookup, if_neg hb]
        exact ih.1 hn
      · intro v hv
        rw [dlookup, if_neg ha] at hv
        obtain ⟨i, hpi, hm⟩ := ih.2 v hv
        exact ⟨i, hpi, by rw [dlookup, if_neg hb]; exact hm⟩

theorem forall2_coerce_mem (res : List (String × String))
    (m : List (String × PValue)) (h : List.Forall₂ coerceRel res m) :
    ∀ q ∈ m, ∃ p ∈ res, p.1 = q.1 ∧
      ((q.1 = "level" ∧ ∃ i, q.2 = PValue.int i) ∨
        (q.1 ≠ "level" ∧ q.2 = PValue.str p.2)) := by
  induction h with
  | nil => intro q hq; simp at hq
  | @cons a b l1 l2 hpq htail ih =>
    intro q hq
    rcases List.mem_cons.mp hq with rfl | hq2
    · obtain ⟨hfst, hval⟩ := hpq
      refine ⟨a, by simp, hfst, ?_⟩
      rcases hval with ⟨hlev, i, _, hq⟩ | ⟨hne, hq⟩
      · exact Or.inl ⟨hfst ▸ hlev, i, hq⟩
      · exact Or.inr ⟨fun e => hne (hfst ▸ e), hq⟩
    · obtain ⟨p, hp, hrest⟩ := ih q hq2
      exact ⟨p, by simp [hp], hrest⟩

theorem coerceLevel_no_level (res : List (String × String))
    (h : ∀ p ∈ res, p.1 ≠ "level") :
    Patch.coerceLevel res = .ok (res.map (fun p => (p.1, PValue.str p.2))) := by
  induction res with
  | nil => rfl
  | cons p rest ih =>
    have hp : p.1 ≠ "level" := h p (by simp)
    have ih2 := ih (fun r hr => h r (by simp [hr]))
    simp only [Patch.coerceLevel] at ih2 ⊢
    simp only [List.map_cons, mapE, Patch.coerceEntry, if_neg hp, ih2]

theorem coerceLevel_of_shape (l : List (String × PValue))
    (h : ∀ q ∈ l, (q.1 = "level" → ∃ i, q.2 = PValue.int i) ∧
      (q.1 ≠ "level" → ∃ s, q.2 = PValue.str s)) :
    Patch.coerceLevel (l.map (fun q => (q.1, pvalueStr q.2))) = .ok l := by
  induction l with
  | nil => rfl
  | cons q rest ih =>
    obtain ⟨k0, v0⟩ := q
    have ih2 := ih (fun r hr => h r (by simp [hr]))
    simp only [Patch.coerceLevel] at ih2 ⊢
    by_cases hk : k0 = "level"
    · obtain ⟨i, hi⟩ := (h (k0, v0) (by simp)).1 hk
      simp only at hi
      subst hi
      have hpy : pyInt (pvalueStr (PValue.int i)) = some i := pyInt_intStr i
      simp only [List.map_cons, mapE, Patch.coerceEntry, if_pos hk, hpy, ih2]
    · obtain ⟨s, hs⟩ := (h (k0, v0) (by simp)).2 hk
      simp only at hs
      subst hs
      have hred : pvalueStr (PValue.str s) = s := rfl
      simp only [List.map_cons, hred, mapE, coerceEntry_other k0 s hk, ih2]

theorem coerceLevel_ok_of (res : List (String × String))
    (h : ∀ p ∈ res, p.1 = "level" → ∃ i, pyInt p.2 = some i) :
    ∃ m, Patch.coerceLevel res = .ok m := by
  apply mapE_all_ok
  intro p hp
  by_cases hk : p.1 = "level"
  · obtain ⟨i, hi⟩ := h p hp hk
    refine ⟨(p.1, .int i), ?_⟩
    simp [Patch.coerceEntry, hk, hi]
  · exact ⟨(p.1, .str p.2), by simp [Patch.coerceEntry, hk]⟩

theorem coerceLevel_error_of (pre post : List (String × String)) (v : String)
    (hpre : ∀ p ∈ pre, p.1 ≠ "level") (hbad : pyInt v = none) :
    Patch.coerceLevel (pre ++ ("level", v) :: post) =
      .error (.validationError ("Invalid integer literal: " ++ v)) := by
  apply mapE_error_append
  · intro p hp
    exact ⟨(p.1, .str p.2), by simp [Patch.coerceEntry, hpre p hp]⟩
  · simp [Patch.coerceEntry, hbad]

-- ## Invariants of the dict segment loop

theorem mem_dictInsert (d : List (String × α)) (k : String) (v : α)
    (p : String × α) (h : p ∈ dictInsert d k v) : p ∈ d ∨ p = (k, v) := by
  unfold dictInsert at h
  split at h
  · obtain ⟨q, hq, he⟩ := List.mem_map.mp h
    split at he
    · exact Or.inr he.symm
    · exact Or.inl (he ▸ hq)
  · rcases List.mem_append.mp h with h2 | h2
    · exact Or.inl h2
    · simp only [List.mem_singleton] at h2
      exact Or.inr h2

theorem dictStep_inv (Q : Char → Prop) (kl al : List String)
    (st st3 : DictSt) (item : String)
    (h : dictStep kl al st item = .ok st3)
    (hseg : ∀ c ∈ item.data, Q c)
    (h1 : (st.acc.map Prod.fst).Nodup)
    (h2 : ∀ p ∈ st.acc, p.1 ∈ kl ++ al)
    (h3 : ∀ p ∈ st.acc, ∀ c ∈ p.2.data, Q c) :
    (st3.acc.map Prod.fst).Nodup ∧ (∀ p ∈ st3.acc, p.1 ∈ kl ++ al) ∧
      (∀ p ∈ st3.acc, ∀ c ∈ p.2.data, Q c) := by
  unfold dictStep at h
  cases hkv : splitKeyValue item with
  | some kv =>
    obtain ⟨k, v⟩ := kv
    rw [hkv] at h
    simp only at h
    split at h
    · next hmem =>
      split at h
      · simp at h
      · simp only [Except.ok.injEq] at h
        subst h
        refine ⟨dictInsert_nodupkeys st.acc k v h1, ?_, ?_⟩
        · intro p hp
          rcases mem_dictInsert st.acc k v p hp with hin | rfl
          · exact h2 p hin
          · exact hmem
        · intro p hp c hc
          rcases mem_dictInsert st.acc k v p hp with hin | rfl
          · exact h3 p hin c hc
          · obtain ⟨hdata, _⟩ := splitKeyValue_eq_some item k v hkv
            exact hseg c (by simp [hdata, hc])
    · simp at h
  | none =>
    rw [hkv] at h
    simp only at h
    cases hg : kl[st.idx]? with
    | none => rw [hg] at h; simp at h
    | some kk =>
      rw [hg] at h
      simp only [Except.ok.injEq] at h
      subst h
      have hkk : kk ∈ kl := List.getElem?_mem hg
      refine ⟨dictInsert_nodupkeys st.acc kk item h1, ?_, ?_⟩
      · intro p hp
        rcases mem_dictInsert st.acc kk item p hp with hin | rfl
        · exact h2 p hin
        · exact List.mem_append_left al hkk
      · intro p hp c hc
        rcases mem_dictInsert st.acc kk item p hp with hin | rfl
        · exact h3 p hin c hc
        · exact hseg c hc

theorem dictRun_inv (Q : Char → Prop) (kl al : List String) :
    ∀ (segs : List String) (st st2 : DictSt),
      dictRun kl al segs st = .ok st2 →
      (∀ s ∈ segs, ∀ c ∈ s.data, Q c) →
      (st.acc.map Prod.fst).Nodup →
      (∀ p ∈ st.acc, p.1 ∈ kl ++ al) →
      (∀ p ∈ st.acc, ∀ c ∈ p.2.data, Q c) →
      (st2.acc.map Prod.fst).Nodup ∧ (∀ p ∈ st2.acc, p.1 ∈ kl ++ al) ∧
        (∀ p ∈ st2.acc, ∀ c ∈ p.2.data, Q c) := by
  intro segs
  induction segs with
  | nil =>
    intro st st2 h hsegs h1 h2 h3
    simp only [dictRun, Except.ok.injEq] at h
    subst h
    exact ⟨h1, h2, h3⟩
  | cons item rest ih =>
    intro st st2 h hsegs h1 h2 h3
    simp only [dictRun] at h
    cases hs : dictStep kl al st item with
    | error e => rw [hs] at h; simp at h
    | ok st3 =>
      rw [hs] at h
      obtain ⟨g1, g2, g3⟩ := dictStep_inv Q kl al st st3 item hs
        (hsegs item (by simp)) h1 h2 h3
      exact ih st3 st2 h (fun s hsr => hsegs s (by simp [hsr])) g1 g2 g3

theorem dlookup_of_mem_nodup (d : List (String × α)) (p : String × α)
    (hnd : (d.map Prod.fst).Nodup) (hp : p ∈ d) : dlookup d p.1 = some p.2 := by
  induction d with
  | nil => simp at hp
  | cons q rest ih =>
    rw [List.map_cons, List.nodup_cons] at hnd
    rcases List.mem_cons.mp hp with rfl | hp2
    · simp [dlookup]
    · have hq : ¬ q.1 = p.1 := by
        intro e
        exact hnd.1 (by rw [e]; exact List.mem_map.mpr ⟨p, hp2, rfl⟩)
      rw [dlookup, if_neg hq]
      exact ih hnd.2 hp2

theorem dlookup_split (d : List (String × α)) (k : String) (v : α)
    (h : dlookup d k = some v) :
    ∃ pre post, d = pre ++ (k, v) :: post ∧ ∀ p ∈ pre, p.1 ≠ k := by
  induction d with
  | nil => simp [dlookup] at h
  | cons q rest ih =>
    rw [dlookup] at h
    split at h
    · next hq =>
      simp only [Option.some.injEq] at h
      refine ⟨[], rest, ?_, fun p hp => by simp at hp⟩
      have : (k, v) = q := by
        rw [← hq, ← h]
      rw [this]
      rfl
    · next hq =>
      obtain ⟨pre, post, he, hpre⟩ := ih h
      refine ⟨q :: pre, post, by rw [he]; rfl, ?_⟩
      intro p hp
      rcases List.mem_cons.mp hp with rfl | hp2
      · exact hq
      · exact hpre p hp2

theorem mem_strSplit (sep : Char) (txt s : String) (h : s ∈ strSplit sep txt) :
    sep ∉ s.data ∧ ∀ c ∈ s.data, c ∈ txt.data := by
  unfold strSplit at h
  split at h
  · simp at h
  · obtain ⟨p, hp, rfl⟩ := List.mem_map.mp h
    exact ⟨mem_splitChars_not_sep sep txt.data p hp,
      fun c hc => mem_splitChars_subset sep txt.data p hp c hc⟩

theorem baseFromString_run (txt : String) (res : List (String × String))
    (h : Patch.baseFromString txt = .ok res) :
    ∃ st2 : DictSt, dictRun Patch.KEYLESS_ENTRIES Patch.ALLOWED_KEYS
      (strSplit ';' txt) ⟨0, [], []⟩ = .ok st2 ∧ st2.acc = res := by
  unfold Patch.baseFromString dictOfStringsFromString at h
  cases hr : dictRun Patch.KEYLESS_ENTRIES Patch.ALLOWED_KEYS
      (strSplit ';' txt) ⟨0, [], []⟩ with
  | error e => rw [hr] at h; simp at h
  | ok st2 =>
    rw [hr] at h
    simp only [Except.ok.injEq] at h
    exact ⟨st2, rfl, h⟩

theorem baseFromString_inv (txt : String) (res : List (String × String))
    (h : Patch.baseFromString txt = .ok res) :
    (res.map Prod.fst).Nodup ∧
      (∀ p ∈ res, p.1 ∈ ["filename", "level", "dest"]) ∧
      (∀ p ∈ res, ∀ c ∈ p.2.data, c ≠ ';' ∧ c ∈ txt.data) := by
  obtain ⟨st2, hr, hacc⟩ := baseFromString_run txt res h
  have hsegs : ∀ s ∈ strSplit ';' txt, ∀ c ∈ s.data, c ≠ ';' ∧ c ∈ txt.data := by
    intro s hs c hc
    obtain ⟨hnot, hsub⟩ := mem_strSplit ';' txt s hs
    exact ⟨fun e => hnot (e ▸ hc), hsub c hc⟩
  obtain ⟨g1, g2, g3⟩ := dictRun_inv (fun c => c ≠ ';' ∧ c ∈ txt.data)
    Patch.KEYLESS_ENTRIES Patch.ALLOWED_KEYS (strSplit ';' txt) ⟨0, [], []⟩ st2
    hr hsegs (by simp) (by simp) (by simp)
  subst hacc
  refine ⟨g1, ?_, g3⟩
  intro p hp
  have := g2 p hp
  simpa [Patch.KEYLESS_ENTRIES, Patch.ALLOWED_KEYS] using this

theorem patch_fromString_of_base (txt : String) (res : List (String × String))
    (h : Patch.baseFromString txt = .ok res) :
    Patch.fromString txt = Patch.coerceLevel res := by
  unfold Patch.fromString
  rw [h]

theorem dlookup_none_keys (d : List (String × α)) (k : String)
    (h : dlookup d k = none) : ∀ p ∈ d, p.1 ≠ k := by
  intro p hp e
  exact (dlookup_eq_none_iff d k).mp h (by rw [← e]; exact List.mem_map.mpr ⟨p, hp, rfl⟩)

-- ## Claim theorems

/-- C2: `Dependency` parsing fails with the `ValueError` carrying the
at-least-one-at-most-two message whenever the number of `;`-separated
segments is 0 or greater than 2. -/
theorem dependency_cardinality (txt : String)
    (h : (strSplit ';' txt).length = 0 ∨ 2 < (strSplit ';' txt).length) :
    Dependency.fromString txt = .error (.valueError Dependency.cardinalityMsg) := by
  unfold Dependency.fromString
  rw [show Dependency.SEPARATOR_DEP = ';' from rfl]
  rcases hlist : strSplit ';' txt with _ | ⟨v, _ | ⟨t, _ | ⟨u, rest⟩⟩⟩
  · rfl
  · rw [hlist] at h; simp at h
  · rw [hlist] at h; simp at h
  · rfl

/-- Witness for C2: in particular `parse ""` and `parse "a;b;c"` fail. -/
theorem dependency_cardinality_witness :
    ((strSplit ';' "").length = 0 ∨ 2 < (strSplit ';' "").length) ∧
      ((strSplit ';' "a;b;c").length = 0 ∨ 2 < (strSplit ';' "a;b;c").length) ∧
      Dependency.fromString "" = .error (.valueError Dependency.cardinalityMsg) ∧
      Dependency.fromString "a;b;c" =
        .error (.valueError Dependency.cardinalityMsg) :=
  ⟨by decide, by decide, dependency_cardinality "" (by decide),
    dependency_cardinality "a;b;c" (by decide)⟩

/-- C3: a one-segment `Dependency` input yields `versop` (the segment handed
to the external version-operator parser) and no `tc_versop`; a two-segment
input yields both, the second segment handed to the external
toolchain-version-operator parser. -/
theorem dependency_fields (txt : String) :
    (∀ v : String, strSplit ';' txt = [v] →
      Dependency.fromString txt = .ok ⟨⟨v⟩, none⟩) ∧
    (∀ v t : String, strSplit ';' txt = [v, t] →
      Dependency.fromString txt = .ok ⟨⟨v⟩, some ⟨t⟩⟩) := by
  constructor
  · intro v h
    unfold Dependency.fromString
    rw [show Dependency.SEPARATOR_DEP = ';' from rfl, h]
  · intro v t h
    unfold Dependency.fromString
    rw [show Dependency.SEPARATOR_DEP = ';' from rfl, h]

/-- Witness for C3: `parse "1.2.3"` has no `tc_versop`, while
`parse "1.2.3;>=2020a"` has both fields. -/
theorem dependency_fields_witness :
    Dependency.fromString "1.2.3" = .ok ⟨⟨"1.2.3"⟩, none⟩ ∧
      Dependency.fromString "1.2.3;>=2020a" =
        .ok ⟨⟨"1.2.3"⟩, some ⟨">=2020a"⟩⟩ :=
  ⟨(dependency_fields "1.2.3").1 "1.2.3" (by decide),
    (dependency_fields "1.2.3;>=2020a").2 "1.2.3" ">=2020a" (by decide)⟩

/-- C4: when the base mapping of a `Patch` input carries a `level` value the
Python `int` builtin accepts (in particular any decimal numeral), the parse
succeeds and the resulting `level` entry is that integer, not a string. -/
theorem patch_level_coercion (txt v : String) (i : Int)
    (res : List (String × String))
    (hbase : Patch.baseFromString txt = .ok res)
    (hv : dlookup res "level" = some v)
    (hi : pyInt v = some i) :
    ∃ m, Patch.fromString txt = .ok m ∧
      dlookup m "level" = some (PValue.int i) := by
  obtain ⟨hnd, _, _⟩ := baseFromString_inv txt res hbase
  obtain ⟨m, hm⟩ := coerceLevel_ok_of res (by
    intro p hp hk
    have := dlookup_of_mem_nodup res p hnd hp
    rw [hk, hv] at this
    simp only [Option.some.injEq] at this
    exact ⟨i, by rw [← this]; exact hi⟩)
  obtain ⟨i2, hpi2, hlook⟩ :=
    (forall2_coerce_dlookup_level res m (coerceLevel_forall2 res m hm)).2 v hv
  rw [hi] at hpi2
  simp only [Option.some.injEq] at hpi2
  subst hpi2
  exact ⟨m, by rw [patch_fromString_of_base txt res hbase]; exact hm, hlook⟩

/-- Witness for C4: `parse "a.patch;level:2"` yields the integer 2. -/
theorem patch_level_coercion_witness :
    ∃ m, Patch.fromString "a.patch;level:2" = .ok m ∧
      dlookup m "level" = some (PValue.int 2) :=
  patch_level_coercion "a.patch;level:2" "2" 2
    [("filename", "a.patch"), ("level", "2")] (by decide) (by decide) (by decide)

/-- C5: when the base mapping of a `Patch` input carries a `level` value the
Python `int` builtin rejects (a non-numeric string), the parse fails with the
`ValidationError` of the spec taxonomy for a non-integer where an integer is
required. -/
theorem patch_level_nonnumeric (txt v : String)
    (res : List (String × String))
    (hbase : Patch.baseFromString txt = .ok res)
    (hv : dlookup res "level" = some v)
    (hbad : pyInt v = none) :
    Patch.fromString txt =
      .error (.validationError ("Invalid integer literal: " ++ v)) := by
  obtain ⟨pre, post, he, hpre⟩ := dlookup_split res "level" v hv
  rw [patch_fromString_of_base txt res hbase, he]
  exact coerceLevel_error_of pre post v hpre hbad

/-- Witness for C5: `parse "a.patch;level:x"` fails on the non-numeric x. -/
theorem patch_level_nonnumeric_witness :
    Patch.fromString "a.patch;level:x" =
      .error (.validationError ("Invalid integer literal: " ++ "x")) :=
  patch_level_nonnumeric "a.patch;level:x" "x"
    [("filename", "a.patch"), ("level", "x")] (by decide) (by decide) (by decide)

/-- C10: the `level` coercion of `Patch._from_string` is a frame over the
base `DictOfStrings` mapping: the key sequence is unchanged, every key other
than `level` keeps exactly the base string value, and when `level` is absent
the result is the base mapping unchanged (every value kept as a string). -/
theorem patch_frame_level_only (txt : String)
    (res : List (String × String)) (m : List (String × PValue))
    (hbase : Patch.baseFromString txt = .ok res)
    (hm : Patch.fromString txt = .ok m) :
    m.map Prod.fst = res.map Prod.fst ∧
      (∀ k, k ≠ "level" → dlookup m k = (dlookup res k).map PValue.str) ∧
      (dlookup res "level" = none →
        m = res.map (fun p => (p.1, PValue.str p.2))) := by
  rw [patch_fromString_of_base txt res hbase] at hm
  have hf2 := coerceLevel_forall2 res m hm
  refine ⟨forall2_coerce_keys res m hf2,
    forall2_coerce_dlookup_other res m hf2, ?_⟩
  intro hnone
  have hno := coerceLevel_no_level res (dlookup_none_keys res "level" hnone)
  rw [hm] at hno
  simp only [Except.ok.injEq] at hno
  exact hno

/-- Witness for C10: on `"a.patch;dest:/tmp"` the result equals the base
mapping with every value kept as a string. -/
theorem patch_frame_level_only_witness :
    ([("filename", PValue.str "a.patch"), ("dest", PValue.str "/tmp")].map
        Prod.fst =
          ([("filename", "a.patch"), ("dest", "/tmp")].map Prod.fst)) ∧
      (∀ k, k ≠ "level" →
        dlookup [("filename", PValue.str "a.patch"), ("dest", PValue.str "/tmp")] k =
          (dlookup [("filename", "a.patch"), ("dest", "/tmp")] k).map PValue.str) ∧
      (dlookup [("filename", "a.patch"), ("dest", "/tmp")] "level" = none →
        [("filename", PValue.str "a.patch"), ("dest", PValue.str "/tmp")] =
          [("filename", "a.patch"), ("dest", "/tmp")].map
            (fun p => (p.1, PValue.str p.2))) :=
  patch_frame_level_only "a.patch;dest:/tmp"
    [("filename", "a.patch"), ("dest", "/tmp")]
    [("filename", PValue.str "a.patch"), ("dest", PValue.str "/tmp")]
    (by decide) (by decide)

theorem patch_fromString_of_base_error (txt : String) (e : ConvErr)
    (h : Patch.baseFromString txt = .error e) :
    Patch.fromString txt = .error e := by
  unfold Patch.fromString
  rw [h]

theorem baseFromString_error_of_run (txt : String) (e : ConvErr)
    (h : dictRun Patch.KEYLESS_ENTRIES Patch.ALLOWED_KEYS
      (strSplit ';' txt) ⟨0, [], []⟩ = .error e) :
    Patch.baseFromString txt = .error e := by
  unfold Patch.baseFromString dictOfStringsFromString
  rw [h]

theorem dictStep_unknown (kl al : List String) (st : DictSt) (item k v : String)
    (hkv : splitKeyValue item = some (k, v)) (hk : k ∉ kl ++ al) :
    dictStep kl al st item =
      .error (.validationError ("Unsupported key " ++ k)) := by
  simp [dictStep, hkv, hk]

theorem dictStep_duplicate (kl al : List String) (st : DictSt)
    (item k v : String) (hkv : splitKeyValue item = some (k, v))
    (hin : k ∈ kl ++ al) (hpos : k ∈ st.posUsed) :
    dictStep kl al st item =
      .error (.validationError ("Duplicate keyless key " ++ k)) := by
  simp [dictStep, hkv, hin, hpos]

/-- C7: a `key:value` segment whose key is outside the allowed-key set
`{filename, level, dest}` makes `Patch` parsing fail — with the unknown-key
`ValidationError` once the segments before it processed fine — and an unknown
key can never appear in a successful result (no silent drop). -/
theorem patch_unknown_key_rejected (txt : String) :
    (∀ m, Patch.fromString txt = .ok m →
      ∀ p ∈ m, p.1 ∈ ["filename", "level", "dest"]) ∧
    (∀ (pre post : List String) (seg k v : String) (st : DictSt),
      strSplit ';' txt = pre ++ seg :: post →
      splitKeyValue seg = some (k, v) →
      k ∉ ["filename", "level", "dest"] →
      dictRun Patch.KEYLESS_ENTRIES Patch.ALLOWED_KEYS pre ⟨0, [], []⟩ = .ok st →
      Patch.fromString txt =
        .error (.validationError ("Unsupported key " ++ k))) := by
  constructor
  · intro m hm p hp
    cases hb : Patch.baseFromString txt with
    | error e => rw [patch_fromString_of_base_error txt e hb] at hm; simp at hm
    | ok res =>
      rw [patch_fromString_of_base txt res hb] at hm
      have hkeys := forall2_coerce_keys res m (coerceLevel_forall2 res m hm)
      have hmem : p.1 ∈ res.map Prod.fst := by
        rw [← hkeys]
        exact List.mem_map.mpr ⟨p, hp, rfl⟩
      obtain ⟨q, hq, he⟩ := List.mem_map.mp hmem
      have := (baseFromString_inv txt res hb).2.1 q hq
      rw [← he]
      exact this
  · intro pre post seg k v st hsplit hkv hk hrun
    have hk2 : k ∉ Patch.KEYLESS_ENTRIES ++ Patch.ALLOWED_KEYS := by
      simpa [Patch.KEYLESS_ENTRIES, Patch.ALLOWED_KEYS] using hk
    have hstep := dictStep_unknown Patch.KEYLESS_ENTRIES Patch.ALLOWED_KEYS
      st seg k v hkv hk2
    have hrest : dictRun Patch.KEYLESS_ENTRIES Patch.ALLOWED_KEYS
        (seg :: post) st = .error (.validationError ("Unsupported key " ++ k)) := by
      simp only [dictRun, hstep]
    apply patch_fromString_of_base_error
    apply baseFromString_error_of_run
    rw [hsplit]
    rw [dictRun_append_ok Patch.KEYLESS_ENTRIES Patch.ALLOWED_KEYS pre
      (seg :: post) ⟨0, [], []⟩ st hrun]
    exact hrest

/-- Witness for C7: `parse "a.patch;bogus:1"` fails with the unknown-key
validation error. -/
theorem patch_unknown_key_rejected_witness :
    Patch.fromString "a.patch;bogus:1" =
      .error (.validationError ("Unsupported key " ++ "bogus")) :=
  (patch_unknown_key_rejected "a.patch;bogus:1").2 ["a.patch"] [] "bogus:1"
    "bogus" "1" ⟨1, ["filename"], [("filename", "a.patch")]⟩
    (by decide) (by decide) (by decide) (by decide)

/-- C8: supplying the keyless key `filename` positionally and then again via
an explicit `filename:` segment makes `Patch` parsing fail with the
duplicate-keyless `ValidationError`. -/
theorem patch_duplicate_keyless_rejected (txt : String)
    (pre post : List String) (seg v : String) (st : DictSt)
    (hsplit : strSplit ';' txt = pre ++ seg :: post)
    (hkv : splitKeyValue seg = some ("filename", v))
    (hrun : dictRun Patch.KEYLESS_ENTRIES Patch.ALLOWED_KEYS pre
      ⟨0, [], []⟩ = .ok st)
    (hpos : "filename" ∈ st.posUsed) :
    Patch.fromString txt =
      .error (.validationError ("Duplicate keyless key " ++ "filename")) := by
  have hin : "filename" ∈ Patch.KEYLESS_ENTRIES ++ Patch.ALLOWED_KEYS := by
    simp [Patch.KEYLESS_ENTRIES, Patch.ALLOWED_KEYS]
  have hstep := dictStep_duplicate Patch.KEYLESS_ENTRIES Patch.ALLOWED_KEYS
    st seg "filename" v hkv hin hpos
  apply patch_fromString_of_base_error
  apply baseFromString_error_of_run
  rw [hsplit]
  rw [dictRun_append_ok Patch.KEYLESS_ENTRIES Patch.ALLOWED_KEYS pre
    (seg :: post) ⟨0, [], []⟩ st hrun]
  simp only [dictRun, hstep]

/-- Witness for C8: `parse "a.patch;filename:b.patch"` fails because the
positional filename was already supplied. -/
theorem patch_duplicate_keyless_rejected_witness :
    Patch.fromString "a.patch;filename:b.patch" =
      .error (.validationError ("Duplicate keyless key " ++ "filename")) :=
  patch_duplicate_keyless_rejected "a.patch;filename:b.patch"
    ["a.patch"] [] "filename:b.patch" "b.patch"
    ⟨1, ["filename"], [("filename", "a.patch")]⟩
    (by decide) (by decide) (by decide) (by decide)

/-- C9: `Patches` parsing yields one element per `,`-separated segment, each
the `Patch` parse of its segment in order; when an element fails, the whole
parse fails with exactly that element's error (fail-fast past the first
failure). -/
theorem patches_elementwise (txt : String) :
    (∀ l, Patches.fromString txt = .ok l →
      List.Forall₂ (fun seg m => Patch.fromString seg = .ok m)
        (strSplit ',' txt) l) ∧
    (∀ (pre post : List String) (seg : String) (e : ConvErr),
      strSplit ',' txt = pre ++ seg :: post →
      (∀ s ∈ pre, ∃ m, Patch.fromString s = .ok m) →
      Patch.fromString seg = .error e →
      Patches.fromString txt = .error e) := by
  constructor
  · intro l h
    exact mapE_ok_forall2 Patch.fromString (strSplit ',' txt) l h
  · intro pre post seg e hsplit hpre hseg
    unfold Patches.fromString
    rw [hsplit]
    exact mapE_error_append Patch.fromString pre post seg e hpre hseg

/-- Witness for C9: `parse "a.patch,b.patch;level:1"` yields exactly the two
patches in order, and `parse "a.patch,x:1"` fails with the second element's
error. -/
theorem patches_elementwise_witness :
    List.Forall₂ (fun seg m => Patch.fromString seg = .ok m)
      (strSplit ',' "a.patch,b.patch;level:1")
      [[("filename", PValue.str "a.patch")],
        [("filename", PValue.str "b.patch"), ("level", PValue.int 1)]] ∧
    Patches.fromString "a.patch,x:1" =
      .error (.validationError ("Unsupported key " ++ "x")) :=
  ⟨(patches_elementwise "a.patch,b.patch;level:1").1 _ (by decide),
    (patches_elementwise "a.patch,x:1").2 ["a.patch"] [] "x:1"
      (.validationError ("Unsupported key " ++ "x")) (by decide)
      (by
        intro s hs
        simp only [List.mem_singleton] at hs
        subst hs
        exact ⟨[("filename", PValue.str "a.patch")], by decide⟩)
      (by decide)⟩

-- ## Positional versus explicit filename (C6)

theorem patch_fromString_congr (t1 t2 : String)
    (h : Patch.baseFromString t1 = Patch.baseFromString t2) :
    Patch.fromString t1 = Patch.fromString t2 := by
  unfold Patch.fromString
  rw [h]

theorem dictStep_keyValue (kl al : List String) (st : DictSt) (item k v : String)
    (hkv : splitKeyValue item = some (k, v)) (hin : k ∈ kl ++ al)
    (hpos : k ∉ st.posUsed) :
    dictStep kl al st item =
      .ok ⟨st.idx + 1, st.posUsed, dictInsert st.acc k v⟩ := by
  simp [dictStep, hkv, hin, hpos]

theorem dictStep_positional (kl al : List String) (st : DictSt)
    (item kk : String) (hkv : splitKeyValue item = none)
    (hg : kl[st.idx]? = some kk) :
    dictStep kl al st item =
      .ok ⟨st.idx + 1, kk :: st.posUsed, dictInsert st.acc kk item⟩ := by
  simp [dictStep, hkv, hg]

theorem dictStep_positional_fail (kl al : List String) (st : DictSt)
    (item : String) (hkv : splitKeyValue item = none)
    (hg : kl[st.idx]? = none) :
    dictStep kl al st item =
      .error (.parseError ("Not a key-value segment: " ++ item)) := by
  simp [dictStep, hkv, hg]

/-- Counterexample for C6: with a filename containing `:` the positional form
and the fully-explicit form do not parse alike (the positional form reads the
filename as an unknown `key:value` pair). -/
theorem patch_positional_explicit_counterexample :
    Patch.fromString ("a:b" ++ ";level:" ++ "1") ≠
      Patch.fromString ("filename:" ++ "a:b" ++ ";level:" ++ "1") := by
  decide

theorem dictRun_cons_ok (kl al : List String) (item : String)
    (rest : List String) (st st2 : DictSt)
    (h : dictStep kl al st item = .ok st2) :
    dictRun kl al (item :: rest) st = dictRun kl al rest st2 := by
  simp only [dictRun, h]

theorem dictRun_cons_error (kl al : List String) (item : String)
    (rest : List String) (st : DictSt) (e : ConvErr)
    (h : dictStep kl al st item = .error e) :
    dictRun kl al (item :: rest) st = .error e := by
  simp only [dictRun, h]

/-- C6 amended: the positional shorthand and the fully-explicit keyed form
parse alike for every filename containing no `:` and every level value
containing no `;` (both produce the same mapping, or fail with the same
error); a filename containing `:` breaks the equivalence, as the
counterexample shows. -/
theorem patch_positional_explicit_amended (fn lvl : String)
    (h1 : ':' ∉ fn.data) (h2 : ';' ∉ lvl.data) :
    Patch.fromString (fn ++ ";level:" ++ lvl) =
      Patch.fromString ("filename:" ++ fn ++ ";level:" ++ lvl) := by
  apply patch_fromString_congr
  set K : List Char := "level:".data ++ lvl.data with hK
  have hKn : ';' ∉ K := by
    intro hc
    rcases List.mem_append.mp hc with hc2 | hc2
    · revert hc2; decide
    · exact h2 hc2
  have hdata1 : (fn ++ ";level:" ++ lvl).data = fn.data ++ ';' :: K := by
    rw [hK, strData_append, strData_append,
      show (";level:").data = ';' :: "level:".data from (by decide)]
    simp
  have hdata2 : ("filename:" ++ fn ++ ";level:" ++ lvl).data =
      ("filename:".data ++ fn.data) ++ ';' :: K := by
    rw [hK, strData_append, strData_append, strData_append,
      show (";level:").data = ';' :: "level:".data from (by decide)]
    simp
  obtain ⟨hd, tl, hSF⟩ : ∃ hd tl, splitChars ';' fn.data = hd :: tl := by
    cases hsf : splitChars ';' fn.data with
    | nil => exact absurd hsf (splitChars_ne_nil ';' fn.data)
    | cons a b => exact ⟨a, b, rfl⟩
  obtain ⟨hd2, tl2, hSF2, hsplit_fd⟩ :=
    splitChars_sepfree_append ';' "filename:".data fn.data (by decide)
  rw [hSF] at hSF2
  injection hSF2 with e1 e2
  subst e1
  subst e2
  have hhd_colon : ':' ∉ hd := fun hc =>
    h1 (mem_splitChars_subset ';' fn.data hd (by rw [hSF]; simp) ':' hc)
  have htl_colon : ∀ p ∈ tl, ':' ∉ p := fun p hp hc =>
    h1 (mem_splitChars_subset ';' fn.data p (by rw [hSF]; simp [hp]) ':' hc)
  have hs1 : strSplit ';' (fn ++ ";level:" ++ lvl) =
      String.mk hd :: (tl.map String.mk ++ [String.mk K]) := by
    unfold strSplit
    rw [hdata1, if_neg (by simp), splitChars_append_sep,
      splitChars_of_not_mem ';' K hKn, hSF]
    simp
  have hs2 : strSplit ';' ("filename:" ++ fn ++ ";level:" ++ lvl) =
      String.mk ("filename:".data ++ hd) :: (tl.map String.mk ++ [String.mk K]) := by
    unfold strSplit
    rw [hdata2, if_neg (by simp), splitChars_append_sep,
      splitChars_of_not_mem ';' K hKn, hsplit_fd]
    simp
  have hkv_hd : splitKeyValue (String.mk hd) = none :=
    splitKeyValue_of_not_mem (String.mk hd) hhd_colon
  have hkv_fdhd : splitKeyValue (String.mk ("filename:".data ++ hd)) =
      some ("filename", String.mk hd) := by
    rw [show ("filename:".data ++ hd) = "filename".data ++ ':' :: hd from by
      rw [show "filename:".data = "filename".data ++ [':'] from (by decide)]
      simp]
    exact splitKeyValue_append_colon "filename".data hd (by decide)
  have hkv_K : splitKeyValue (String.mk K) = some ("level", lvl) := by
    rw [show K = "level".data ++ ':' :: lvl.data from by
      rw [hK, show "level:".data = "level".data ++ [':'] from (by decide)]
      simp]
    have := splitKeyValue_append_colon "level".data lvl.data (by decide)
    rw [strMk_data lvl] at this
    exact this
  have hstep1p : dictStep Patch.KEYLESS_ENTRIES Patch.ALLOWED_KEYS
      ⟨0, [], []⟩ (String.mk hd) =
      .ok ⟨1, ["filename"], [("filename", String.mk hd)]⟩ := by
    rw [dictStep_positional Patch.KEYLESS_ENTRIES Patch.ALLOWED_KEYS
      ⟨0, [], []⟩ (String.mk hd) "filename" hkv_hd (by decide)]
    simp [dictInsert, dlookup]
  have hstep1e : dictStep Patch.KEYLESS_ENTRIES Patch.ALLOWED_KEYS
      ⟨0, [], []⟩ (String.mk ("filename:".data ++ hd)) =
      .ok ⟨1, [], [("filename", String.mk hd)]⟩ := by
    rw [dictStep_keyValue Patch.KEYLESS_ENTRIES Patch.ALLOWED_KEYS
      ⟨0, [], []⟩ (String.mk ("filename:".data ++ hd)) "filename"
      (String.mk hd) hkv_fdhd (by decide) (by simp)]
    simp [dictInsert, dlookup]
  unfold Patch.baseFromString dictOfStringsFromString
  cases htl : tl with
  | nil =>
    have hstep2p : dictStep Patch.KEYLESS_ENTRIES Patch.ALLOWED_KEYS
        ⟨1, ["filename"], [("filename", String.mk hd)]⟩ (String.mk K) =
        .ok ⟨2, ["filename"],
          dictInsert [("filename", String.mk hd)] "level" lvl⟩ := by
      rw [dictStep_keyValue Patch.KEYLESS_ENTRIES Patch.ALLOWED_KEYS
        ⟨1, ["filename"], [("filename", String.mk hd)]⟩ (String.mk K)
        "level" lvl hkv_K (by decide) (by simp)]
    have hstep2e : dictStep Patch.KEYLESS_ENTRIES Patch.ALLOWED_KEYS
        ⟨1, [], [("filename", String.mk hd)]⟩ (String.mk K) =
        .ok ⟨2, [],
          dictInsert [("filename", String.mk hd)] "level" lvl⟩ := by
      rw [dictStep_keyValue Patch.KEYLESS_ENTRIES Patch.ALLOWED_KEYS
        ⟨1, [], [("filename", String.mk hd)]⟩ (String.mk K)
        "level" lvl hkv_K (by decide) (by simp)]
    have htail0 : List.map String.mk ([] : List (List Char)) ++ [String.mk K] =
        [String.mk K] := by simp
    rw [hs1, hs2, htl, htail0,
      dictRun_cons_ok _ _ _ _ _ _ hstep1p,
      dictRun_cons_ok _ _ _ _ _ _ hstep2p,
      dictRun_cons_ok _ _ _ _ _ _ hstep1e,
      dictRun_cons_ok _ _ _ _ _ _ hstep2e]
    rfl
  | cons p tl2 =>
    have hkv_p : splitKeyValue (String.mk p) = none :=
      splitKeyValue_of_not_mem (String.mk p) (htl_colon p (by simp [htl]))
    have hstep2p : dictStep Patch.KEYLESS_ENTRIES Patch.ALLOWED_KEYS
        ⟨1, ["filename"], [("filename", String.mk hd)]⟩ (String.mk p) =
        .error (.parseError ("Not a key-value segment: " ++ String.mk p)) :=
      dictStep_positional_fail Patch.KEYLESS_ENTRIES Patch.ALLOWED_KEYS
        ⟨1, ["filename"], [("filename", String.mk hd)]⟩ (String.mk p)
        hkv_p (by rfl)
    have hstep2e : dictStep Patch.KEYLESS_ENTRIES Patch.ALLOWED_KEYS
        ⟨1, [], [("filename", String.mk hd)]⟩ (String.mk p) =
        .error (.parseError ("Not a key-value segment: " ++ String.mk p)) :=
      dictStep_positional_fail Patch.KEYLESS_ENTRIES Patch.ALLOWED_KEYS
        ⟨1, [], [("filename", String.mk hd)]⟩ (String.mk p)
        hkv_p (by rfl)
    have htail : List.map String.mk (p :: tl2) ++ [String.mk K] =
        String.mk p :: (List.map String.mk tl2 ++ [String.mk K]) := by simp
    rw [hs1, hs2, htl, htail,
      dictRun_cons_ok _ _ _ _ _ _ hstep1p,
      dictRun_cons_error _ _ _ _ _ _ hstep2p,
      dictRun_cons_ok _ _ _ _ _ _ hstep1e,
      dictRun_cons_error _ _ _ _ _ _ hstep2e]

/-- Witness for C6 amended: with filename `a.patch` (no `:`) and level `1`
(no `;`) both forms parse alike. -/
theorem patch_positional_explicit_amended_witness :
    Patch.fromString ("a.patch" ++ ";level:" ++ "1") =
      Patch.fromString ("filename:" ++ "a.patch" ++ ";level:" ++ "1") :=
  patch_positional_explicit_amended "a.patch" "1" (by decide) (by decide)

-- ## Round-trip infrastructure

theorem dlookup_some_mem (d : List (String × α)) (k : String) (v : α)
    (h : dlookup d k = some v) : (k, v) ∈ d := by
  induction d with
  | nil => simp [dlookup] at h
  | cons q rest ih =>
    rw [dlookup] at h
    split at h
    · next hq =>
      simp only [Option.some.injEq] at h
      have : (k, v) = q := by rw [← hq, ← h]
      rw [this]
      simp
    · exact List.mem_cons_of_mem q (ih h)

theorem dlookup_filter_ne (d : List (String × α)) (kx k : String)
    (h : k ≠ kx) :
    dlookup (d.filter (fun p => !(decide (p.1 ∈ [kx])))) k = dlookup d k := by
  induction d with
  | nil => rfl
  | cons q rest ih =>
    rw [List.filter_cons]
    by_cases hq : q.1 = kx
    · have hcond : (!(decide (q.1 ∈ [kx]))) = false := by simp [hq]
      rw [hcond, if_neg (by simp)]
      have hqk : ¬ q.1 = k := fun e => h (e ▸ hq)
      rw [dlookup, if_neg hqk]
      exact ih
    · have hcond : (!(decide (q.1 ∈ [kx]))) = true := by simp [hq]
      rw [hcond, if_pos rfl]
      simp only [dlookup]
      split
      · rfl
      · exact ih

theorem map_mk_of_map_data (l : List String) :
    (l.map String.data).map (fun cs => String.mk cs) = l := by
  induction l with
  | nil => rfl
  | cons s rest ih => simp [ih, strMk_data]

theorem joinSep_data_ne (sep : Char) (p : String) (ps : List String)
    (h : p.data ≠ [] ∨ ps ≠ []) : (joinSep sep (p :: ps)).data ≠ [] := by
  unfold joinSep
  cases ps with
  | nil =>
    simp only [List.map_cons, List.map_nil]
    rcases h with h2 | h2
    · simpa [charJoinSep] using h2
    · exact absurd rfl h2
  | cons q qs =>
    simp only [List.map_cons]
    rw [charJoinSep_cons sep p.data _ (by simp)]
    simp

theorem strSplit_joinSep (sep : Char) (parts : List String)
    (hne : parts ≠ []) (hnn : (joinSep sep parts).data ≠ [])
    (h : ∀ p ∈ parts, sep ∉ p.data) :
    strSplit sep (joinSep sep parts) = parts := by
  unfold strSplit
  rw [if_neg hnn]
  have hdata : (joinSep sep parts).data = charJoinSep sep (parts.map String.data) :=
    rfl
  rw [hdata, splitChars_charJoinSep sep (parts.map String.data)
    (by simpa using hne)
    (by
      intro p hp
      obtain ⟨s, hs, rfl⟩ := List.mem_map.mp hp
      exact h s hs)]
  exact map_mk_of_map_data parts

theorem mem_charJoinSep (sep : Char) (ps : List (List Char)) :
    ∀ c ∈ charJoinSep sep ps, c = sep ∨ ∃ p ∈ ps, c ∈ p := by
  induction ps with
  | nil => intro c hc; simp [charJoinSep] at hc
  | cons p rest ih =>
    intro c hc
    cases rest with
    | nil =>
      simp only [charJoinSep] at hc
      exact Or.inr ⟨p, by simp, hc⟩
    | cons q qs =>
      rw [charJoinSep_cons sep p _ (by simp)] at hc
      rcases List.mem_append.mp hc with h2 | h2
      · exact Or.inr ⟨p, by simp, h2⟩
      · rcases List.mem_cons.mp h2 with rfl | h3
        · exact Or.inl rfl
        · rcases ih c h3 with h4 | ⟨r, hr, hcr⟩
          · exact Or.inl h4
          · exact Or.inr ⟨r, by simp [hr], hcr⟩

theorem intStr_chars (i : Int) :
    ∀ c ∈ (intStr i).data, c = '-' ∨ ∃ d, d < 10 ∧ c = digitChar d := by
  intro c hc
  cases i with
  | ofNat n => exact Or.inr (natChars_mem n c hc)
  | negSucc n =>
    rcases List.mem_cons.mp hc with rfl | h2
    · exact Or.inl rfl
    · exact Or.inr (natChars_mem (n + 1) c h2)

theorem intStr_no_sep (i : Int) :
    ';' ∉ (intStr i).data ∧ ',' ∉ (intStr i).data := by
  constructor <;> intro hc <;> rcases intStr_chars i _ hc with h | ⟨d, _, h⟩
  · revert h; decide
  · exact absurd h.symm (digitChar_shape d).1
  · revert h; decide
  · exact absurd h.symm (digitChar_shape d).2.1

theorem dictRun_keyValue_entries (kl al : List String)
    (entries : List (String × String)) :
    ∀ st : DictSt,
      (∀ e ∈ entries, ':' ∉ e.1.data ∧ e.1 ∈ kl ++ al ∧ e.1 ∉ st.posUsed ∧
        dlookup st.acc e.1 = none) →
      (entries.map Prod.fst).Nodup →
      dictRun kl al (entries.map (fun e => e.1 ++ ":" ++ e.2)) st =
        .ok ⟨st.idx + entries.length, st.posUsed, st.acc ++ entries⟩ := by
  induction entries with
  | nil =>
    intro st _ _
    simp only [List.map_nil, dictRun, List.length_nil, Nat.add_zero,
      List.append_nil]
  | cons e rest ih =>
    intro st hall hnd
    obtain ⟨hc, hin, hpos, hnone⟩ := hall e (by simp)
    rw [List.map_cons, List.nodup_cons] at hnd
    have hdata : (e.1 ++ ":" ++ e.2).data = e.1.data ++ ':' :: e.2.data := by
      rw [strData_append, strData_append]
      simp
    have hkv : splitKeyValue (e.1 ++ ":" ++ e.2) = some (e.1, e.2) := by
      unfold splitKeyValue
      rw [hdata, splitFirst_append_sep ':' _ _ hc]
    have hall2 : ∀ e2 ∈ rest, ':' ∉ e2.1.data ∧ e2.1 ∈ kl ++ al ∧
        e2.1 ∉ (⟨st.idx + 1, st.posUsed, st.acc ++ [(e.1, e.2)]⟩ : DictSt).posUsed ∧
        dlookup (⟨st.idx + 1, st.posUsed, st.acc ++ [(e.1, e.2)]⟩ : DictSt).acc
          e2.1 = none := by
      intro e2 he2
      obtain ⟨c2, in2, pos2, none2⟩ := hall e2 (by simp [he2])
      refine ⟨c2, in2, pos2, ?_⟩
      rw [dlookup_append_none st.acc _ e2.1 none2]
      have hne : ¬ e.1 = e2.1 := by
        intro heq
        exact hnd.1 (heq ▸ List.mem_map.mpr ⟨e2, he2, rfl⟩)
      simp [dlookup, hne]
    rw [List.map_cons,
      dictRun_cons_ok _ _ _ _ _ _
        (dictStep_keyValue kl al st _ e.1 e.2 hkv hin hpos),
      show dictInsert st.acc e.1 e.2 = st.acc ++ [(e.1, e.2)] from
        dictInsert_of_none st.acc e.1 e.2 hnone,
      ih ⟨st.idx + 1, st.posUsed, st.acc ++ [(e.1, e.2)]⟩ hall2 hnd.2]
    have harith : st.idx + 1 + rest.length = st.idx + (e :: rest).length := by
      rw [List.length_cons]
      omega
    rw [harith, List.append_assoc]
    rfl

theorem patch_keys_allowed (txt : String) (m : List (String × PValue))
    (hm : Patch.fromString txt = .ok m) :
    ∀ p ∈ m, p.1 ∈ ["filename", "level", "dest"] := by
  intro p hp
  cases hb : Patch.baseFromString txt with
  | error e => rw [patch_fromString_of_base_error txt e hb] at hm; simp at hm
  | ok res =>
    rw [patch_fromString_of_base txt res hb] at hm
    have hkeys := forall2_coerce_keys res m (coerceLevel_forall2 res m hm)
    have hmem : p.1 ∈ res.map Prod.fst := by
      rw [← hkeys]
      exact List.mem_map.mpr ⟨p, hp, rfl⟩
    obtain ⟨q, hq, he⟩ := List.mem_map.mp hmem
    have := (baseFromString_inv txt res hb).2.1 q hq
    rw [← he]
    exact this

theorem key_chars (k : String) (h : k ∈ ["filename", "level", "dest"]) :
    ';' ∉ k.data ∧ ',' ∉ k.data ∧ ':' ∉ k.data := by
  fin_cases h <;> exact (by decide)

theorem str_data_ne_nil (s : String) (h : s ≠ "") : s.data ≠ [] := by
  intro hd
  apply h
  rw [← strMk_data s, hd]

theorem patch_fromString_empty : Patch.fromString "" = .ok [] := by decide

theorem joinSep_data_ne_of_all (sep : Char) (parts : List String)
    (hne : parts ≠ []) (h : ∀ p ∈ parts, p.data ≠ []) :
    (joinSep sep parts).data ≠ [] := by
  cases parts with
  | nil => exact absurd rfl hne
  | cons p ps => exact joinSep_data_ne sep p ps (Or.inl (h p (by simp)))

theorem patch_roundtrip_aux (s : String) (m : List (String × PValue))
    (h1 : Patch.fromString s = .ok m) (h2 : filenameOk m) :
    ∃ m2, Patch.fromString (Patch.toString m) = .ok m2 ∧ dictEq m2 m := by
  obtain ⟨res, hb, hcl⟩ : ∃ res, Patch.baseFromString s = .ok res ∧
      Patch.coerceLevel res = .ok m := by
    cases hb : Patch.baseFromString s with
    | error e => rw [patch_fromString_of_base_error s e hb] at h1; simp at h1
    | ok res =>
      rw [patch_fromString_of_base s res hb] at h1
      exact ⟨res, rfl, h1⟩
  obtain ⟨hnd, hkeys, hvals⟩ := baseFromString_inv s res hb
  have hf2 := coerceLevel_forall2 res m hcl
  have hkeq : m.map Prod.fst = res.map Prod.fst := forall2_coerce_keys res m hf2
  have hmnd : (m.map Prod.fst).Nodup := by rw [hkeq]; exact hnd
  have hmkeys : ∀ q ∈ m, q.1 ∈ ["filename", "level", "dest"] :=
    patch_keys_allowed s m h1
  have hshape : ∀ q ∈ m, (q.1 = "level" → ∃ i, q.2 = PValue.int i) ∧
      (q.1 ≠ "level" → ∃ s0, q.2 = PValue.str s0 ∧ ';' ∉ s0.data) := by
    intro q hq
    obtain ⟨p, hp, hfst, hcase⟩ := forall2_coerce_mem res m hf2 q hq
    constructor
    · intro hlev
      rcases hcase with ⟨_, i, hi⟩ | ⟨hne, _⟩
      · exact ⟨i, hi⟩
      · exact absurd hlev hne
    · intro hne
      rcases hcase with ⟨hlev, _⟩ | ⟨_, hstr⟩
      · exact absurd hlev hne
      · exact ⟨p.2, hstr, fun hcm => (hvals p hp ';' hcm).1 rfl⟩
  have hvsemi : ∀ q ∈ m, ';' ∉ (pvalueStr q.2).data := by
    intro q hq hcm
    by_cases hk : q.1 = "level"
    · obtain ⟨i, hi⟩ := (hshape q hq).1 hk
      rw [hi] at hcm
      exact (intStr_no_sep i).1 hcm
    · obtain ⟨s0, hs0, hsep⟩ := (hshape q hq).2 hk
      rw [hs0] at hcm
      exact hsep hcm
  have hfmtdata : ∀ q : String × PValue, (q.1 ++ ":" ++ pvalueStr q.2).data =
      q.1.data ++ ':' :: (pvalueStr q.2).data := by
    intro q
    rw [strData_append, strData_append]
    simp
  have hpieces : ∀ q ∈ m, ';' ∉ (q.1 ++ ":" ++ pvalueStr q.2).data := by
    intro q hq hcm
    rw [hfmtdata q] at hcm
    rcases List.mem_append.mp hcm with h3 | h3
    · exact (key_chars q.1 (hmkeys q hq)).1 h3
    · rcases List.mem_cons.mp h3 with h4 | h4
      · revert h4; decide
      · exact hvsemi q hq h4
  have hshape2 : ∀ q ∈ m, (q.1 = "level" → ∃ i, q.2 = PValue.int i) ∧
      (q.1 ≠ "level" → ∃ s0, q.2 = PValue.str s0) := by
    intro q hq
    refine ⟨(hshape q hq).1, fun hne => ?_⟩
    obtain ⟨s0, hs0, _⟩ := (hshape q hq).2 hne
    exact ⟨s0, hs0⟩
  cases hfl : dlookup m "filename" with
  | none =>
    have hnofn : ∀ p ∈ m, p.1 ≠ "filename" := dlookup_none_keys m "filename" hfl
    have hfilter : m.filter (fun p => !(decide (p.1 ∈ ["filename"]))) = m := by
      apply List.filter_eq_self.mpr
      intro p hp
      simp [hnofn p hp]
    have hser : Patch.toString m =
        joinSep ';' (m.map (fun p => p.1 ++ ":" ++ pvalueStr p.2)) := by
      unfold Patch.toString dictToString
      rw [show Patch.KEYLESS_ENTRIES = ["filename"] from rfl,
        List.filterMap_cons, hfl, hfilter]
      simp
    by_cases hm0 : m = []
    · subst hm0
      refine ⟨[], ?_, fun k => rfl⟩
      rw [hser]
      simp only [List.map_nil]
      decide
    · have hparts_ne : m.map (fun p => p.1 ++ ":" ++ pvalueStr p.2) ≠ [] := by
        simpa using hm0
      have hparts_nn : ∀ pt ∈ m.map (fun p => p.1 ++ ":" ++ pvalueStr p.2),
          pt.data ≠ [] := by
        intro pt hpt
        obtain ⟨q, hq, rfl⟩ := List.mem_map.mp hpt
        rw [hfmtdata q]
        simp
      have hparts_sep : ∀ pt ∈ m.map (fun p => p.1 ++ ":" ++ pvalueStr p.2),
          ';' ∉ pt.data := by
        intro pt hpt
        obtain ⟨q, hq, rfl⟩ := List.mem_map.mp hpt
        exact hpieces q hq
      have hsplit2 : strSplit ';' (Patch.toString m) =
          m.map (fun p => p.1 ++ ":" ++ pvalueStr p.2) := by
        rw [hser]
        exact strSplit_joinSep ';' _ hparts_ne
          (joinSep_data_ne_of_all ';' _ hparts_ne hparts_nn) hparts_sep
      have hmapfmt : m.map (fun p => p.1 ++ ":" ++ pvalueStr p.2) =
          (m.map (fun p => (p.1, pvalueStr p.2))).map
            (fun e => e.1 ++ ":" ++ e.2) := by
        rw [List.map_map]
        rfl
      have hentries_nd :
          ((m.map (fun p => (p.1, pvalueStr p.2))).map Prod.fst).Nodup := by
        rw [List.map_map]
        exact hmnd
      have hrun := dictRun_keyValue_entries Patch.KEYLESS_ENTRIES
        Patch.ALLOWED_KEYS (m.map (fun p => (p.1, pvalueStr p.2))) ⟨0, [], []⟩
        (by
          intro e he
          obtain ⟨q, hq, rfl⟩ := List.mem_map.mp he
          exact ⟨(key_chars q.1 (hmkeys q hq)).2.2, hmkeys q hq, by simp, rfl⟩)
        hentries_nd
      have hbase2 : Patch.baseFromString (Patch.toString m) =
          .ok (m.map (fun p => (p.1, pvalueStr p.2))) := by
        unfold Patch.baseFromString dictOfStringsFromString
        rw [hsplit2, hmapfmt, hrun]
        simp
      refine ⟨m, ?_, fun k => rfl⟩
      rw [patch_fromString_of_base _ _ hbase2]
      exact coerceLevel_of_shape m hshape2
  | some fv =>
    have hfvmem : ("filename", fv) ∈ m := dlookup_some_mem m "filename" fv hfl
    obtain ⟨s0, hfv, hs0sep⟩ :=
      (hshape ("filename", fv) hfvmem).2 (by simp)
    have hfn : s0 ≠ "" ∧ ':' ∉ s0.data := by
      unfold filenameOk at h2
      rw [hfl, show fv = PValue.str s0 from hfv] at h2
      exact h2
    have hpos1 : (["filename"] : List String).filterMap
        (fun k => (dlookup m k).map pvalueStr) = [s0] := by
      rw [List.filterMap_cons, hfl, show fv = PValue.str s0 from hfv]
      simp [pvalueStr]
    have hser : Patch.toString m = joinSep ';'
        (s0 :: (m.filter (fun p => !(decide (p.1 ∈ ["filename"])))).map
          (fun p => p.1 ++ ":" ++ pvalueStr p.2)) := by
      unfold Patch.toString dictToString
      rw [show Patch.KEYLESS_ENTRIES = ["filename"] from rfl, hpos1]
      rfl
    have hmf_mem : ∀ p ∈ m.filter (fun p => !(decide (p.1 ∈ ["filename"]))),
        p ∈ m ∧ p.1 ≠ "filename" := by
      intro p hp
      refine ⟨List.mem_of_mem_filter hp, ?_⟩
      have := List.of_mem_filter hp
      simpa using this
    have hparts_nn : ∀ pt ∈ s0 ::
        (m.filter (fun p => !(decide (p.1 ∈ ["filename"])))).map
          (fun p => p.1 ++ ":" ++ pvalueStr p.2), pt.data ≠ [] := by
      intro pt hpt
      rcases List.mem_cons.mp hpt with rfl | hpt2
      · exact str_data_ne_nil pt hfn.1
      · obtain ⟨q, hq, rfl⟩ := List.mem_map.mp hpt2
        rw [hfmtdata q]
        simp
    have hparts_sep : ∀ pt ∈ s0 ::
        (m.filter (fun p => !(decide (p.1 ∈ ["filename"])))).map
          (fun p => p.1 ++ ":" ++ pvalueStr p.2), ';' ∉ pt.data := by
      intro pt hpt
      rcases List.mem_cons.mp hpt with rfl | hpt2
      · exact hs0sep
      · obtain ⟨q, hq, rfl⟩ := List.mem_map.mp hpt2
        exact hpieces q (hmf_mem q hq).1
    have hsplit2 : strSplit ';' (Patch.toString m) = s0 ::
        (m.filter (fun p => !(decide (p.1 ∈ ["filename"])))).map
          (fun p => p.1 ++ ":" ++ pvalueStr p.2) := by
      rw [hser]
      exact strSplit_joinSep ';' _ (by simp)
        (joinSep_data_ne_of_all ';' _ (by simp) hparts_nn) hparts_sep
    have hstep1 : dictStep Patch.KEYLESS_ENTRIES Patch.ALLOWED_KEYS
        ⟨0, [], []⟩ s0 = .ok ⟨1, ["filename"], [("filename", s0)]⟩ := by
      rw [dictStep_positional Patch.KEYLESS_ENTRIES Patch.ALLOWED_KEYS
        ⟨0, [], []⟩ s0 "filename"
        (splitKeyValue_of_not_mem s0 hfn.2) (by decide)]
      simp [dictInsert, dlookup]
    have hentries_nd :
        (((m.filter (fun p => !(decide (p.1 ∈ ["filename"])))).map
          (fun p => (p.1, pvalueStr p.2))).map Prod.fst).Nodup := by
      rw [List.map_map]
      exact List.Nodup.sublist
        (List.Sublist.map Prod.fst (List.filter_sublist m)) hmnd
    have hrun := dictRun_keyValue_entries Patch.KEYLESS_ENTRIES
      Patch.ALLOWED_KEYS
      ((m.filter (fun p => !(decide (p.1 ∈ ["filename"])))).map
        (fun p => (p.1, pvalueStr p.2)))
      ⟨1, ["filename"], [("filename", s0)]⟩
      (by
        intro e he
        obtain ⟨q, hq, rfl⟩ := List.mem_map.mp he
        obtain ⟨hqm, hqne⟩ := hmf_mem q hq
        refine ⟨(key_chars q.1 (hmkeys q hqm)).2.2, hmkeys q hqm, ?_, ?_⟩
        · simp [hqne]
        · have hne2 : ¬ "filename" = q.1 := fun e => hqne e.symm
          simp [dlookup, hne2])
      hentries_nd
    have hmapfmt : (m.filter (fun p => !(decide (p.1 ∈ ["filename"])))).map
        (fun p => p.1 ++ ":" ++ pvalueStr p.2) =
        ((m.filter (fun p => !(decide (p.1 ∈ ["filename"])))).map
          (fun p => (p.1, pvalueStr p.2))).map (fun e => e.1 ++ ":" ++ e.2) := by
      rw [List.map_map]
      rfl
    have hbase2 : Patch.baseFromString (Patch.toString m) =
        .ok (("filename", s0) ::
          (m.filter (fun p => !(decide (p.1 ∈ ["filename"])))).map
            (fun p => (p.1, pvalueStr p.2))) := by
      unfold Patch.baseFromString dictOfStringsFromString
      rw [hsplit2, hmapfmt,
        dictRun_cons_ok _ _ _ _ _ _ hstep1, hrun]
      simp
    have hcoerce : Patch.coerceLevel (("filename", s0) ::
        (m.filter (fun p => !(decide (p.1 ∈ ["filename"])))).map
          (fun p => (p.1, pvalueStr p.2))) =
        .ok (("filename", PValue.str s0) ::
          m.filter (fun p => !(decide (p.1 ∈ ["filename"])))) := by
      have := coerceLevel_of_shape (("filename", PValue.str s0) ::
        m.filter (fun p => !(decide (p.1 ∈ ["filename"]))))
        (by
          intro q hq
          rcases List.mem_cons.mp hq with rfl | hq2
          · exact ⟨fun he => absurd he (by simp), fun _ => ⟨s0, rfl⟩⟩
          · exact hshape2 q (hmf_mem q hq2).1)
      exact this
    refine ⟨("filename", PValue.str s0) ::
      m.filter (fun p => !(decide (p.1 ∈ ["filename"]))), ?_, ?_⟩
    · rw [patch_fromString_of_base _ _ hbase2]
      exact hcoerce
    · intro k
      by_cases hk : k = "filename"
      · subst hk
        rw [dlookup, if_pos rfl, hfl, show fv = PValue.str s0 from hfv]
      · rw [dlookup, if_neg (fun e => hk e.symm),
          dlookup_filter_ne m "filename" k hk]

theorem map_data_mk (l : List (List Char)) :
    (l.map (fun cs => String.mk cs)).map String.data = l := by
  induction l with
  | nil => rfl
  | cons cs rest ih => simp [ih]

theorem fmt_data (q : String × PValue) :
    (q.1 ++ ":" ++ pvalueStr q.2).data =
      q.1.data ++ ':' :: (pvalueStr q.2).data := by
  rw [strData_append, strData_append]
  simp

theorem joinSep_strSplit (sep : Char) (s : String) (h : s.data ≠ []) :
    joinSep sep (strSplit sep s) = s := by
  unfold strSplit joinSep
  rw [if_neg h]
  apply strEq_of_data
  show charJoinSep sep
    (((splitChars sep s.data).map (fun cs => String.mk cs)).map String.data) =
      s.data
  rw [map_data_mk]
  exact charJoinSep_splitChars sep s.data

theorem dependency_roundtrip (s : String) (d : Dependency)
    (h : Dependency.fromString s = .ok d) :
    Dependency.fromString (Dependency.toString d) = .ok d := by
  have hts : Dependency.toString d = s := by
    unfold Dependency.fromString at h
    have hne : s.data ≠ [] := by
      intro hd
      rw [show strSplit Dependency.SEPARATOR_DEP s = [] from by
        unfold strSplit; rw [if_pos hd]] at h
      simp at h
    have hjoin := joinSep_strSplit Dependency.SEPARATOR_DEP s hne
    cases hsp : strSplit Dependency.SEPARATOR_DEP s with
    | nil => rw [hsp] at h; simp at h
    | cons v rest =>
      cases rest with
      | nil =>
        rw [hsp] at h hjoin
        simp only [Except.ok.injEq] at h
        subst h
        rw [← hjoin]
        unfold Dependency.toString joinSep
        apply strEq_of_data
        rfl
      | cons t rest2 =>
        cases rest2 with
        | nil =>
          rw [hsp] at h hjoin
          simp only [Except.ok.injEq] at h
          subst h
          rw [← hjoin]
          unfold Dependency.toString joinSep
          apply strEq_of_data
          show (v ++ ";" ++ t).data = charJoinSep ';' ([v, t].map String.data)
          rw [strData_append, strData_append]
          simp [charJoinSep]
        | cons u rest3 =>
          rw [hsp] at h
          simp at h
  rw [hts]
  exact h

theorem joinSep_data_nil (sep : Char) (parts : List String)
    (h : (joinSep sep parts).data = []) : parts = [] ∨ parts = [""] := by
  cases parts with
  | nil => exact Or.inl rfl
  | cons p ps =>
    cases ps with
    | nil =>
      right
      have : p.data = [] := h
      rw [show p = "" from strEq_of_data p "" this]
    | cons q qs =>
      exfalso
      have : (joinSep sep (p :: q :: qs)).data =
          p.data ++ sep :: charJoinSep sep ((q :: qs).map String.data) := by
        unfold joinSep
        rw [strData_mk, List.map_cons, charJoinSep_cons sep p.data _ (by simp)]
      rw [this] at h
      simp at h

theorem patch_toString_ne_nil (m : List (String × PValue))
    (hok : filenameOk m) (hne : m ≠ []) : (Patch.toString m).data ≠ [] := by
  intro hd
  unfold Patch.toString dictToString at hd
  rcases joinSep_data_nil ';' _ hd with hcase | hcase
  · rw [List.append_eq_nil] at hcase
    obtain ⟨hpos, hrest⟩ := hcase
    have hfl : dlookup m "filename" = none := by
      cases hdl : dlookup m "filename" with
      | none => rfl
      | some fv =>
        rw [show Patch.KEYLESS_ENTRIES = ["filename"] from rfl,
          List.filterMap_cons, hdl] at hpos
        simp at hpos
    have hfilter0 : m.filter (fun p => !(decide (p.1 ∈ Patch.KEYLESS_ENTRIES))) = [] :=
      List.map_eq_nil_iff.mp hrest
    have hall : ∀ p ∈ m, p.1 = "filename" := by
      intro p hp
      have := List.filter_eq_nil_iff.mp hfilter0 p hp
      simpa [Patch.KEYLESS_ENTRIES] using this
    cases hm : m with
    | nil => exact hne hm
    | cons q m' =>
      have h1 : q.1 = "filename" := hall q (by rw [hm]; simp)
      have h2 : q.1 ≠ "filename" :=
        dlookup_none_keys m "filename" hfl q (by rw [hm]; simp)
      exact h2 h1
  · rcases hsplit : Patch.KEYLESS_ENTRIES.filterMap
        (fun k => (dlookup m k).map pvalueStr) with _ | ⟨x, xs⟩
    · rw [hsplit, List.nil_append] at hcase
      cases hflt : (m.filter (fun p => !(decide (p.1 ∈ Patch.KEYLESS_ENTRIES)))).map
          (fun p => p.1 ++ ":" ++ pvalueStr p.2) with
      | nil => rw [hflt] at hcase; simp at hcase
      | cons y ys =>
        rw [hflt] at hcase
        injection hcase with hy hys
        obtain ⟨q, hq, hqy⟩ := List.mem_map.mp (by rw [hflt]; simp :
          y ∈ (m.filter (fun p => !(decide (p.1 ∈ Patch.KEYLESS_ENTRIES)))).map
            (fun p => p.1 ++ ":" ++ pvalueStr p.2))
        have : y.data ≠ [] := by
          rw [← hqy, fmt_data q]
          simp
        exact this (by rw [hy])
    · rw [hsplit] at hcase
      injection hcase with hx hxs
      -- x = "" and x = pvalueStr of the filename value
      rw [show Patch.KEYLESS_ENTRIES = ["filename"] from rfl,
        List.filterMap_cons] at hsplit
      cases hdl : dlookup m "filename" with
      | none => rw [hdl] at hsplit; simp at hsplit
      | some fv =>
        rw [hdl] at hsplit
        simp only [Option.map_some, List.filterMap_nil] at hsplit
        injection hsplit with hx2 _
        unfold filenameOk at hok
        rw [hdl] at hok
        cases fv with
        | str s0 =>
          apply hok.1
          apply strEq_of_data
          rw [show s0.data = (pvalueStr (PValue.str s0)).data from rfl, hx2, hx]
        | int i =>
          have : (pvalueStr (PValue.int i)).data ≠ [] := by
            cases i with
            | ofNat n => exact fun hc => natChars_ne_nil n hc
            | negSucc n => simp [pvalueStr, intStr]
          rw [hx2, hx] at this
          exact this rfl

theorem patch_toString_comma (s : String) (m : List (String × PValue))
    (h1 : Patch.fromString s = .ok m) (hc : ',' ∉ s.data) :
    ',' ∉ (Patch.toString m).data := by
  obtain ⟨res, hb, hcl⟩ : ∃ res, Patch.baseFromString s = .ok res ∧
      Patch.coerceLevel res = .ok m := by
    cases hb : Patch.baseFromString s with
    | error e => rw [patch_fromString_of_base_error s e hb] at h1; simp at h1
    | ok res =>
      rw [patch_fromString_of_base s res hb] at h1
      exact ⟨res, rfl, h1⟩
  obtain ⟨hnd, hkeys, hvals⟩ := baseFromString_inv s res hb
  have hf2 := coerceLevel_forall2 res m hcl
  have hmkeys : ∀ q ∈ m, q.1 ∈ ["filename", "level", "dest"] :=
    patch_keys_allowed s m h1
  have hvcomma : ∀ q ∈ m, ',' ∉ (pvalueStr q.2).data := by
    intro q hq hcm
    obtain ⟨p, hp, hfst, hcase⟩ := forall2_coerce_mem res m hf2 q hq
    rcases hcase with ⟨_, i, hi⟩ | ⟨_, hstr⟩
    · rw [hi] at hcm
      exact (intStr_no_sep i).2 hcm
    · rw [hstr] at hcm
      exact hc ((hvals p hp ',' hcm).2)
  intro hcm
  unfold Patch.toString dictToString at hcm
  rcases mem_charJoinSep ';' _ ',' hcm with he | ⟨pd, hpd, hcpd⟩
  · revert he; decide
  · obtain ⟨pt, hpt, rfl⟩ := List.mem_map.mp hpd
    rcases List.mem_append.mp hpt with hpos | hrest
    · rw [show Patch.KEYLESS_ENTRIES = ["filename"] from rfl,
        List.filterMap_cons] at hpos
      cases hdl : dlookup m "filename" with
      | none => rw [hdl] at hpos; simp at hpos
      | some fv =>
        rw [hdl] at hpos
        simp at hpos
        subst hpos
        exact hvcomma ("filename", fv) (dlookup_some_mem m "filename" fv hdl)
          hcpd
    · obtain ⟨q, hq, rfl⟩ := List.mem_map.mp hrest
      have hqm := List.mem_of_mem_filter hq
      rw [fmt_data q] at hcpd
      rcases List.mem_append.mp hcpd with h3 | h3
      · exact (key_chars q.1 (hmkeys q hqm)).2.1 h3
      · rcases List.mem_cons.mp h3 with h4 | h4
        · revert h4; decide
        · exact hvcomma q hqm h4

theorem forall2_exists_right (R : α → β → Prop) (l1 : List α) (l2 : List β)
    (h : List.Forall₂ R l1 l2) : ∀ b ∈ l2, ∃ a ∈ l1, R a b := by
  induction h with
  | nil => intro b hb; simp at hb
  | @cons a2 b2 t1 t2 hr _ ih =>
    intro b hb
    rcases List.mem_cons.mp hb with rfl | hb2
    · exact ⟨a2, by simp, hr⟩
    · obtain ⟨a, ha, har⟩ := ih b hb2
      exact ⟨a, by simp [ha], har⟩

theorem mapE_patch_pointwise (L : List (List (String × PValue)))
    (h : ∀ m ∈ L, ∃ m2, Patch.fromString (Patch.toString m) = .ok m2 ∧
      dictEq m2 m) :
    ∃ L2, mapE Patch.fromString (L.map Patch.toString) = .ok L2 ∧
      List.Forall₂ (fun m2 m => dictEq m2 m) L2 L := by
  induction L with
  | nil => exact ⟨[], rfl, List.Forall₂.nil⟩
  | cons m rest ih =>
    obtain ⟨m2, hm2, heq⟩ := h m (by simp)
    obtain ⟨L2, hL2, hf⟩ := ih (fun m3 h3 => h m3 (by simp [h3]))
    exact ⟨m2 :: L2, by simp [mapE, hm2, hL2], List.Forall₂.cons heq hf⟩

theorem patches_roundtrip (s : String) (L : List (List (String × PValue)))
    (h1 : Patches.fromString s = .ok L)
    (hok : ∀ m ∈ L, filenameOk m) (hL : L ≠ [[]]) :
    ∃ L2, Patches.fromString (Patches.toString L) = .ok L2 ∧
      List.Forall₂ (fun m2 m => dictEq m2 m) L2 L := by
  have hf2 := mapE_ok_forall2 Patch.fromString (strSplit ',' s) L h1
  have hsrc : ∀ m ∈ L, ∃ pc, Patch.fromString pc = .ok m ∧ ',' ∉ pc.data := by
    intro m hm
    obtain ⟨pc, hpc, hr⟩ :=
      forall2_exists_right _ (strSplit ',' s) L hf2 m hm
    exact ⟨pc, hr, (mem_strSplit ',' s pc hpc).1⟩
  have hpt : ∀ m ∈ L, ∃ m2,
      Patch.fromString (Patch.toString m) = .ok m2 ∧ dictEq m2 m := by
    intro m hm
    obtain ⟨pc, hpc, _⟩ := hsrc m hm
    exact patch_roundtrip_aux pc m hpc (hok m hm)
  cases hLc : L with
  | nil =>
    refine ⟨[], ?_, List.Forall₂.nil⟩
    decide
  | cons m0 L' =>
    rw [← hLc]
    have hcomma : ∀ pt ∈ L.map Patch.toString, ',' ∉ pt.data := by
      intro pt hpt
      obtain ⟨m, hm, rfl⟩ := List.mem_map.mp hpt
      obtain ⟨pc, hpc, hcc⟩ := hsrc m hm
      exact patch_toString_comma pc m hpc hcc
    have hnn : (joinSep ',' (L.map Patch.toString)).data ≠ [] := by
      rw [hLc, List.map_cons]
      apply joinSep_data_ne
      cases hL' : L' with
      | nil =>
        left
        apply patch_toString_ne_nil m0 (hok m0 (by rw [hLc]; simp))
        intro hm0
        exact hL (by rw [hLc, hL', hm0])
      | cons m1 L2 => right; simp
    have hsplit2 : strSplit ',' (Patches.toString L) = L.map Patch.toString := by
      unfold Patches.toString
      exact strSplit_joinSep ',' _ (by rw [hLc]; simp) hnn hcomma
    obtain ⟨L2, hL2, hfd⟩ := mapE_patch_pointwise L hpt
    refine ⟨L2, ?_, hfd⟩
    unfold Patches.fromString
    rw [hsplit2]
    exact hL2

/-- Counterexample for C1: the round trip fails as universally stated for
`Patch` — `parse "filename:a:b"` succeeds, but its serialized form `"a:b"`
fails to re-parse, because the re-read treats the filename as an unknown
`key:value` pair. -/
theorem roundtrip_counterexample :
    ¬ (∀ (s : String) (x : List (String × PValue)),
      Patch.fromString s = .ok x →
        Patch.fromString (Patch.toString x) = .ok x) := by
  intro h
  have h2 := h "filename:a:b" [("filename", PValue.str "a:b")] (by decide)
  revert h2
  decide

/-- C1 amended: round-trip fidelity holds (a) for `Dependency`
unconditionally — re-parsing the serialized form of a parsed value yields it
back; (b) for `Patch` for every parsed mapping whose `filename` entry, when
present, is a nonempty string without `:` — re-parsing the serialization
yields an equal mapping (same keys bound to the same values; the filename
entry may move to the front); (c) for `Patches` elementwise under the same
proviso, as long as the list is not a single empty patch.  Without the
filename proviso the round trip fails, as the counterexample shows. -/
theorem roundtrip_amended :
    (∀ (s : String) (d : Dependency), Dependency.fromString s = .ok d →
      Dependency.fromString (Dependency.toString d) = .ok d) ∧
    (∀ (s : String) (m : List (String × PValue)),
      Patch.fromString s = .ok m → filenameOk m →
        ∃ m2, Patch.fromString (Patch.toString m) = .ok m2 ∧ dictEq m2 m) ∧
    (∀ (s : String) (L : List (List (String × PValue))),
      Patches.fromString s = .ok L → (∀ m ∈ L, filenameOk m) → L ≠ [[]] →
        ∃ L2, Patches.fromString (Patches.toString L) = .ok L2 ∧
          List.Forall₂ (fun m2 m => dictEq m2 m) L2 L) :=
  ⟨dependency_roundtrip, patch_roundtrip_aux, patches_roundtrip⟩

/-- Witness for C1 amended: concrete round trips for a dependency, a patch
and a patch list. -/
theorem roundtrip_amended_witness :
    Dependency.fromString
        (Dependency.toString ⟨⟨"1.2.3"⟩, some ⟨">=2020a"⟩⟩) =
      .ok ⟨⟨"1.2.3"⟩, some ⟨">=2020a"⟩⟩ ∧
    (∃ m2, Patch.fromString (Patch.toString
        [("filename", PValue.str "a.patch"), ("level", PValue.int 2)]) =
      .ok m2 ∧
      dictEq m2 [("filename", PValue.str "a.patch"), ("level", PValue.int 2)]) ∧
    (∃ L2, Patches.fromString (Patches.toString
        [[("filename", PValue.str "a.patch")],
          [("filename", PValue.str "b.patch"), ("level", PValue.int 1)]]) =
      .ok L2 ∧
      List.Forall₂ (fun m2 m => dictEq m2 m) L2
        [[("filename", PValue.str "a.patch")],
          [("filename", PValue.str "b.patch"), ("level", PValue.int 1)]]) :=
  ⟨roundtrip_amended.1 "1.2.3;>=2020a" ⟨⟨"1.2.3"⟩, some ⟨">=2020a"⟩⟩ (by decide),
    roundtrip_amended.2.1 "a.patch;level:2"
      [("filename", PValue.str "a.patch"), ("level", PValue.int 2)]
      (by decide)
      (show ("a.patch" : String) ≠ "" ∧ ':' ∉ ("a.patch" : String).data by decide),
    roundtrip_amended.2.2 "a.patch,b.patch;level:1"
      [[("filename", PValue.str "a.patch")],
        [("filename", PValue.str "b.patch"), ("level", PValue.int 1)]]
      (by decide)
      (by
        intro m hm
        rcases List.mem_cons.mp hm with rfl | hm2
        · exact (show ("a.patch" : String) ≠ "" ∧
            ':' ∉ ("a.patch" : String).data by decide)
        · rcases List.mem_cons.mp hm2 with rfl | hm3
          · exact (show ("b.patch" : String) ≠ "" ∧
              ':' ∉ ("b.patch" : String).data by decide)
          · simp at hm3)
      (by decide)⟩
